import Mathlib

/-!
Shallow embedding of the qualia embedded document store (Rust sources under
`src/`), covering the data model (`object.rs`), the query compiler
(`query.rs`, `query_builder.rs`) and the store / checkpoint / undo engine
(`store.rs`), together with proofs settling the frozen claims about the
natural-language specification.

Modelling conventions:
* `i64` values are `Int` (no arithmetic overflowing 64 bits occurs in the
  modelled code paths).
* `HashMap<String, PropValue>` (the `Object` type) is modelled as a
  key-sorted association list, so structural equality coincides with map
  equality and serde round-trips are the identity.
* SQLite tables are lists of typed rows; `INTEGER PRIMARY KEY` columns are
  assigned `max + 1` and the `AUTOINCREMENT` object-id sequence is threaded
  explicitly and never reused.
* Fallible Rust functions returning `Result` are `Except StoreErr`; a Rust
  panic (`unwrap`, `assert_eq!`, `panic!`) inside an infallible signature is
  modelled as `Option.none` or a dedicated error constructor, as documented
  at each definition.
-/

namespace Qualia

/-- The two property value variants of `object.rs` (`PropValue`):
64-bit signed integers and UTF-8 strings. -/
inductive PropValue where
  | num (n : Int)
  | str (s : String)
deriving DecidableEq

/-- `PropValue::as_number` (object.rs): the integer if a `Number`, else `None`. -/
def PropValue.asNumber : PropValue → Option Int
  | .num n => some n
  | _ => none

/-- `PropValue::as_str` (object.rs): the string if a `String`, else `None`. -/
def PropValue.asStr : PropValue → Option String
  | .str s => some s
  | _ => none

/-- `Object` (object.rs): a map from property names to values, modelled as a
key-sorted association list so that structural equality is map equality. -/
abbrev Obj := List (String × PropValue)

/-- `HashMap::insert`: key-ordered insertion replacing an existing binding. -/
def Obj.insertProp : Obj → String → PropValue → Obj
  | [], k, v => [(k, v)]
  | (k1, v1) :: rest, k, v =>
    if k < k1 then (k, v) :: (k1, v1) :: rest
    else if k = k1 then (k, v) :: rest
    else (k1, v1) :: Obj.insertProp rest k v

/-- `HashMap::get` / indexing: the value bound to a key, if any. -/
def Obj.lookupProp : Obj → String → Option PropValue
  | [], _ => none
  | (k1, v1) :: rest, k => if k = k1 then some v1 else Obj.lookupProp rest k

/-! ## The query tree (`query.rs`) -/

/-- `QueryNode` (query.rs): the algebraic query tree. -/
inductive QueryNode where
  | empty
  | propEqual (name : String) (value : PropValue)
  | propLike (name : String) (pattern : String)
  | and (nodes : List QueryNode)

/-- `Vec<String>::join` / `str::join` semantics: pieces joined by a separator
(empty output on an empty list). -/
def joinSepList (sep : List Char) : List (List Char) → List Char
  | [] => []
  | [x] => x
  | x :: y :: xs => x ++ sep ++ joinSepList sep (y :: xs)

/-- Rust `str::split` on a single-character pattern: the list of (possibly
empty) chunks between separator occurrences; the empty input yields one
empty chunk, exactly as in Rust. -/
def splitOnChar (sep : Char) : List Char → List (List Char)
  | [] => [[]]
  | c :: rest =>
    match splitOnChar sep rest with
    | [] => [[]]
    | t :: ts => if c = sep then [] :: t :: ts else (c :: t) :: ts

/-- The characters `regex::escape` prefixes with a backslash
(`regex_syntax::is_meta_character`). -/
def metaChars : List Char :=
  ['\\', '.', '+', '*', '?', '(', ')', '|', '[', ']',
   Char.ofNat 123, Char.ofNat 125, '^', '$', '#', '&', '-', '~']

/-- `regex::escape` on a single character. -/
def regexEscapeChar (c : Char) : List Char :=
  if c ∈ metaChars then ['\\', c] else [c]

/-- `regex::escape` (used via `pieces.map(regex::escape)` in query.rs). -/
def regexEscapeList (s : List Char) : List Char :=
  (s.map regexEscapeChar).flatten

/-- `QueryNode::equal_to_sql_clause` (query.rs lines 67-85): the reserved
name `"object-id"` compares against the identity column; any other name
extracts the JSON property and casts by the value's variant. -/
def equalToSqlClause (name : String) (value : PropValue) : String × List PropValue :=
  if name = "object-id" then ("object_id = ?", [value])
  else
    let castType := match value with
      | .str _ => "TEXT"
      | .num _ => "NUMBER"
    ("CAST(json_extract(properties, \"$." ++ name ++ "\") AS " ++ castType ++ ") = ?",
     [value])

/-- `QueryNode::like_to_sql_clause` (query.rs lines 87-106): split the pattern
on spaces, discard empty words, regex-escape the pieces of each word around
its `*`s joined back with `\w*`, wrap each word in `\b...\b`, join words with
`.*?`, and prefix the case-insensitive marker. -/
def likeToSqlClause (name : String) (pattern : String) : String × List PropValue :=
  let words := (splitOnChar ' ' pattern.data).filter (fun w => w ≠ [])
  let wrappedWords : List (List Char) := words.map (fun word =>
    let pieces := splitOnChar '*' word
    let quotedPieces := pieces.map regexEscapeList
    ['\\', 'b'] ++ joinSepList ['\\', 'w', '*'] quotedPieces ++ ['\\', 'b'])
  let wrappedWordsPhrase := joinSepList ['.', '*', '?'] wrappedWords
  ("CAST(json_extract(properties, \"$." ++ name ++ "\") AS TEXT) REGEXP ?",
   [PropValue.str (String.mk (['(', '?', 'i', ')'] ++ wrappedWordsPhrase))])

mutual

/-- `QueryNode::to_sql_clause` (query.rs lines 57-65): compile a node to a
where-clause string and its ordered parameter list. -/
def QueryNode.toSqlClause : QueryNode → String × List PropValue
  | .empty => ("1=1", [])
  | .propEqual name value => equalToSqlClause name value
  | .propLike name pattern => likeToSqlClause name pattern
  | .and nodes =>
    let compiled := QueryNode.listToSqlClauses nodes
    (String.mk (joinSepList " AND ".data (compiled.map (fun p => p.1.data))),
     (compiled.map (fun p => p.2)).flatten)

/-- The `nodes.iter().map(|node| node.to_sql_clause())` of
`QueryNode::and_to_sql_clause` (query.rs lines 108-116). -/
def QueryNode.listToSqlClauses : List QueryNode → List (String × List PropValue)
  | [] => []
  | n :: ns => n.toSqlClause :: QueryNode.listToSqlClauses ns

end

/-! ## The query builder (`query_builder.rs`) -/

/-- `QueryBuilder` (query_builder.rs): three-state fluent builder. -/
inductive QueryBuilder where
  | empty
  | single (node : QueryNode)
  | and (nodes : List QueryNode)

/-- `QueryBuilder::add`. -/
def QueryBuilder.add : QueryBuilder → QueryNode → QueryBuilder
  | .empty, n => .single n
  | .single p, n => .and [p, n]
  | .and ns, n => .and (ns ++ [n])

/-- `QueryBuilder::id` (query_builder.rs lines 35-40): appends a
`PropEqual` on the name `"object-id"`. -/
def QueryBuilder.id (b : QueryBuilder) (value : Int) : QueryBuilder :=
  b.add (.propEqual "object-id" (.num value))

/-- `QueryBuilder::equal`. -/
def QueryBuilder.equal (b : QueryBuilder) (name : String) (value : PropValue) : QueryBuilder :=
  b.add (.propEqual name value)

/-- `QueryBuilder::like`. -/
def QueryBuilder.like (b : QueryBuilder) (name : String) (pattern : String) : QueryBuilder :=
  b.add (.propLike name pattern)

/-- `QueryBuilder::build`. -/
def QueryBuilder.build : QueryBuilder → QueryNode
  | .single node => node
  | .and nodes => .and nodes
  | .empty => .empty

/-! ## The store (`store.rs`) -/

/-- The error kinds of `StoreError` (store.rs) together with the engine-level
outcomes surfaced through `rusqlite::Error`: `queryReturnedNoRows` for
`query_row` on an empty result, `constraintViolation` for a primary-key
conflict on `INSERT`, `invalidSql` for a prepare-time syntax error, and
`corruption` for the `assert_eq!` panics of the undo engine (the spec treats
any affected-row count other than 1 as fatal corruption). -/
inductive StoreErr where
  | queryReturnedNoRows
  | notOne (n : Nat)
  | corruption
  | constraintViolation
  | invalidSql
  | serialization
  | usage
deriving DecidableEq

/-- The `add` / `delete` / `update` actions of `object_changes.action`. -/
inductive ChangeType where
  | add
  | delete
  | update
deriving DecidableEq

/-- A row of the `object_changes` table (timestamp omitted: never read). -/
structure ChangeEntry where
  serial : Int
  action : ChangeType
  objectId : Int
  previous : Obj
deriving DecidableEq

/-- A row of the `checkpoints` table (timestamp omitted: never read). -/
structure CheckpointRow where
  checkpointId : Int
  serial : Int
  description : String
deriving DecidableEq

/-- A row of the `objects` table; `properties` is the deserialised JSON blob. -/
structure Row where
  objectId : Int
  properties : Obj
deriving DecidableEq

/-- The persistent state of a `Store`: the three tables plus the
`AUTOINCREMENT` sequence for `objects.object_id` (never reused). Table rows
are listed in primary-key insertion order. -/
structure StoreState where
  nextObjectId : Int
  rows : List Row
  changes : List ChangeEntry
  checkpoints : List CheckpointRow
deriving DecidableEq

/-- The state of a freshly opened store after migrations. -/
def StoreState.emptyStore : StoreState := ⟨1, [], [], []⟩

/-- SQL `MAX` over a list of integers: `none` on an empty list. -/
def maxInt? : List Int → Option Int
  | [] => none
  | x :: xs =>
    some (match maxInt? xs with
          | none => x
          | some m => max x m)

/-- `IFNULL(MAX(serial), 0)` over the change log. -/
def maxSerialD (changes : List ChangeEntry) : Int :=
  (maxInt? (changes.map (fun e => e.serial))).getD 0

/-- The serial SQLite assigns to the next `object_changes` row
(`INTEGER PRIMARY KEY`: one more than the current maximum). -/
def nextSerial (changes : List ChangeEntry) : Int :=
  maxSerialD changes + 1

/-- The id SQLite assigns to the next `checkpoints` row
(`INTEGER PRIMARY KEY`: one more than the current maximum). -/
def nextCheckpointId (checkpoints : List CheckpointRow) : Int :=
  (maxInt? (checkpoints.map (fun c => c.checkpointId))).getD 0 + 1

/-- `Checkpoint::record_change` (store.rs lines 394-409): append an
`object_changes` row with a fresh serial. -/
def StoreState.recordChange (s : StoreState) (ty : ChangeType) (oid : Int)
    (previous : Obj) : StoreState :=
  { s with changes := s.changes ++ [⟨nextSerial s.changes, ty, oid, previous⟩] }

/-- The `object_id` injection performed by `Collection::iter`
(store.rs line 525); also the serialised shape recorded as `previous` by
`MutableCollection::delete` / `set`, which serialise the iterated object. -/
def obsProps (r : Row) : Obj :=
  r.properties.insertProp "object_id" (.num r.objectId)

/-- SQLite `json_patch(properties, fields)`: since property values are never
JSON null, the RFC-7386 merge sets every patched key. -/
def jsonPatch (props : Obj) (fields : Obj) : Obj :=
  fields.foldl (fun o kv => o.insertProp kv.1 kv.2) props

/-- A mutation issued through an open checkpoint. The row-selection predicate
of `delete` / `set` abstracts the compiled where-clause both the recording
`SELECT` and the bulk `DELETE` / `UPDATE` evaluate (the same clause against
the same transaction state, hence the same predicate). -/
inductive Mutation where
  | addObj (props : Obj)
  | deleteWhere (sel : Row → Bool)
  | setWhere (sel : Row → Bool) (fields : Obj)

/-- One checkpoint mutation:
`Checkpoint::add` (store.rs lines 414-425) inserts the row, reads back the
assigned id and records `(Add, id, "{}")`;
`MutableCollection::delete` (lines 677-690) records
`(Delete, id, serialised-iterated-object)` for each match, then bulk-deletes;
`MutableCollection::set` (lines 695-718) is a no-op on an empty patch, else
records `(Update, id, serialised-iterated-object)` for each match, then
bulk-updates with `json_patch`. -/
def StoreState.applyMutation (s : StoreState) : Mutation → StoreState
  | .addObj props =>
    let oid := s.nextObjectId
    let s1 := { s with rows := s.rows ++ [(⟨oid, props⟩ : Row)], nextObjectId := oid + 1 }
    s1.recordChange .add oid []
  | .deleteWhere sel =>
    let matched := s.rows.filter sel
    let s1 := matched.foldl (fun t r => t.recordChange .delete r.objectId (obsProps r)) s
    { s1 with rows := s1.rows.filter (fun r => !sel r) }
  | .setWhere sel fields =>
    if fields = [] then s
    else
      let matched := s.rows.filter sel
      let s1 := matched.foldl (fun t r => t.recordChange .update r.objectId (obsProps r)) s
      { s1 with rows := s1.rows.map (fun r =>
          if sel r then { r with properties := jsonPatch r.properties fields } else r) }

/-- The mutations of one checkpoint, applied in order. -/
def StoreState.applyMutations (s : StoreState) (muts : List Mutation) : StoreState :=
  muts.foldl StoreState.applyMutation s

/-- `Checkpoint::create_checkpoint` + `commit` (store.rs lines 370-392):
append a checkpoint row whose serial is `IFNULL(MAX(serial), 0)` over
`object_changes`, then commit the transaction. -/
def StoreState.commitCheckpoint (s : StoreState) (muts : List Mutation)
    (description : String) : StoreState :=
  let s1 := s.applyMutations muts
  { s1 with checkpoints :=
      s1.checkpoints ++ [⟨nextCheckpointId s1.checkpoints, maxSerialD s1.changes, description⟩] }

/-! ### The undo engine (`Store::undo`, store.rs lines 225-331) -/

/-- Descending insertion used to model `ORDER BY ... DESC` on integers. -/
def insertDescInt (x : Int) : List Int → List Int
  | [] => [x]
  | y :: ys => if x ≥ y then x :: y :: ys else y :: insertDescInt x ys

/-- `ORDER BY serial DESC` over a list of integers. -/
def sortDescInt (l : List Int) : List Int :=
  l.foldr insertDescInt []

/-- Descending insertion by serial, modelling `ORDER BY serial DESC` on
change entries (serials are unique, so tie order is irrelevant). -/
def insertDescEntry (e : ChangeEntry) : List ChangeEntry → List ChangeEntry
  | [] => [e]
  | f :: fs => if e.serial ≥ f.serial then e :: f :: fs else f :: insertDescEntry e fs

/-- `ORDER BY serial DESC` over change entries. -/
def sortDescEntries (l : List ChangeEntry) : List ChangeEntry :=
  l.foldr insertDescEntry []

/-- Number of `objects` rows with the given id (the affected-row count of the
id-keyed statements replayed by undo). -/
def countId (rows : List Row) (oid : Int) : Nat :=
  (rows.filter (fun r => r.objectId == oid)).length

/-- One inverted change entry (store.rs lines 277-310):
`Add` → `DELETE ... WHERE object_id = ?` asserting exactly one affected row;
`Delete` → `INSERT INTO objects(object_id, properties) VALUES(?, ?)` (a
duplicate id is a primary-key constraint violation) asserting one row;
`Update` → `UPDATE objects SET properties = ? WHERE object_id = ?` asserting
one row. The `assert_eq!` panics are modelled as `corruption` errors; any
error aborts the surrounding transaction, leaving the store unchanged. -/
def applyInverse (rows : List Row) (e : ChangeEntry) : Except StoreErr (List Row) :=
  match e.action with
  | .add =>
    if countId rows e.objectId = 1 then
      .ok (rows.filter (fun r => !(r.objectId == e.objectId)))
    else .error .corruption
  | .delete =>
    if countId rows e.objectId = 0 then
      .ok (rows ++ [(⟨e.objectId, e.previous⟩ : Row)])
    else .error .constraintViolation
  | .update =>
    if countId rows e.objectId = 1 then
      .ok (rows.map (fun r =>
        if r.objectId == e.objectId then { r with properties := e.previous } else r))
    else .error .corruption

/-- The inverted entries applied in sequence. -/
def applyInverses (rows : List Row) : List ChangeEntry → Except StoreErr (List Row)
  | [] => .ok rows
  | e :: es => do
    let rows1 ← applyInverse rows e
    applyInverses rows1 es

/-- `Store::undo` (store.rs lines 225-331). Reads the two newest checkpoint
serials (`LIMIT 2`, second defaulting to 0), looks up the description of the
first checkpoint row carrying the newest serial (the unordered
`WHERE serial = ?` lookup scans in primary-key order), replays the inverses
of all change entries with `serial > prev` in descending serial order, then
deletes those entries and every checkpoint row whose serial equals the
newest serial, and commits. An error rolls the transaction back, so the
caller's state is unchanged; on success the description and new state are
returned (`none` when no checkpoint exists). -/
def StoreState.undo (s : StoreState) : Except StoreErr (Option String × StoreState) :=
  match sortDescInt (s.checkpoints.map (fun c => c.serial)) with
  | [] => .ok (none, s)
  | cur :: restSerials =>
    let prev := restSerials.head?.getD 0
    match s.checkpoints.find? (fun c => c.serial == cur) with
    | none => .error .queryReturnedNoRows
    | some curRow => do
      let entries := sortDescEntries (s.changes.filter (fun e => decide (prev < e.serial)))
      let rows1 ← applyInverses s.rows entries
      .ok (some curRow.description,
        { s with
            rows := rows1,
            changes := s.changes.filter (fun e => !decide (prev < e.serial)),
            checkpoints := s.checkpoints.filter (fun c => !(c.serial == cur)) })

/-- `Store::last_checkpoint_id` (store.rs lines 334-347):
`SELECT checkpoint_id ... ORDER BY checkpoint_id DESC LIMIT 1` through
`query_row`, which returns `QueryReturnedNoRows` on an empty table. -/
def StoreState.lastCheckpointId (s : StoreState) : Except StoreErr Int :=
  match sortDescInt (s.checkpoints.map (fun c => c.checkpointId)) with
  | [] => .error .queryReturnedNoRows
  | x :: _ => .ok x

/-- `Store::modified_since` (store.rs lines 350-354). -/
def StoreState.modifiedSince (s : StoreState) (a : Int) : Except StoreErr Bool := do
  let b ← s.lastCheckpointId
  .ok (a != b)

/-! ### Collections (`Collection`, store.rs lines 474-599)

The modelled SQL engine interprets the where-clauses the compiler emits for
the claims under audit. `prepare` fails (`invalidSql`) on anything else - in
particular on the empty clause produced by `And([])`, which makes
`SELECT ... FROM objects WHERE ` a syntax error at prepare time. -/

/-- Prepared-statement semantics of a compiled (where-clause, parameters)
pair over an `objects` row: `1=1` matches everything; `object_id = ?`
compares the identity column (an integer column never equals a text
parameter); parameter count must match the placeholders. -/
def compileWhere (clause : String) (ps : List PropValue) : Option (Row → Bool) :=
  if clause = "1=1" then
    match ps with
    | [] => some (fun _ => true)
    | _ => none
  else if clause = "object_id = ?" then
    match ps with
    | [PropValue.num n] => some (fun r => r.objectId == n)
    | [PropValue.str _] => some (fun _ => false)
    | _ => none
  else none

/-- `Collection::iter` (store.rs lines 510-531): materialise every matching
row, deserialise its properties blob and inject `object_id`. -/
def collectionIter (rows : List Row) (q : QueryNode) : Except StoreErr (List Obj) :=
  match compileWhere q.toSqlClause.1 q.toSqlClause.2 with
  | none => .error .invalidSql
  | some f => .ok ((rows.filter f).map obsProps)

/-- `Collection::len` (store.rs lines 493-500): `SELECT COUNT(*)`. -/
def collectionLen (rows : List Row) (q : QueryNode) : Except StoreErr Nat :=
  match compileWhere q.toSqlClause.1 q.toSqlClause.2 with
  | none => .error .invalidSql
  | some f => .ok (rows.filter f).length

/-- `Collection::exists` (store.rs lines 503-505). -/
def collectionExists (rows : List Row) (q : QueryNode) : Except StoreErr Bool := do
  let n ← collectionLen rows q
  .ok (n != 0)

/-- `Collection::one` (store.rs lines 536-545): iterate, count, fail with
`NotOne` unless exactly one object matches. -/
def collectionOne (rows : List Row) (q : QueryNode) : Except StoreErr Obj := do
  let results ← collectionIter rows q
  let len ← collectionLen rows q
  if len > 1 then .error (.notOne len)
  else
    match results with
    | o :: _ => .ok o
    | [] => .error (.notOne 0)

/-! ### Cached mappings (`CachedMapping`, store.rs lines 601-662) -/

/-- `CachedMapping` (store.rs): the captured checkpoint id, the query and the
pre-materialised mapped results. -/
structure CachedMapping (O : Type) where
  fetchedAtCheckpoint : Int
  query : QueryNode
  objects : List O

/-- `CachedMapping::refresh` (store.rs lines 628-636): re-run the query, map
each object through `f`; `objects` is assigned only when the whole
collect succeeds. -/
def CachedMapping.refresh (c : CachedMapping O) (s : StoreState)
    (f : Obj → StoreState → Except StoreErr O) : Except StoreErr (CachedMapping O) := do
  let objs ← collectionIter s.rows c.query
  let mapped ← objs.mapM (fun o => f o s)
  .ok { c with objects := mapped }

/-- `CachedMapping::valid` (store.rs lines 647-649). -/
def CachedMapping.valid (c : CachedMapping O) (s : StoreState) : Except StoreErr Bool := do
  let m ← s.modifiedSince c.fetchedAtCheckpoint
  .ok (!m)

/-- `CachedMapping::refresh_if_needed` (store.rs lines 638-645), modelled as
the final `&mut self` state paired with the returned result: when invalid,
the captured checkpoint id is advanced BEFORE the re-query, so a failing
refresh leaves the advanced id with the stale objects. -/
def CachedMapping.refreshIfNeeded (c : CachedMapping O) (s : StoreState)
    (f : Obj → StoreState → Except StoreErr O) :
    CachedMapping O × Except StoreErr Unit :=
  match c.valid s with
  | .error e => (c, .error e)
  | .ok true => (c, .ok ())
  | .ok false =>
    match s.lastCheckpointId with
    | .error e => (c, .error e)
    | .ok newId =>
      let c1 := { c with fetchedAtCheckpoint := newId }
      match c1.refresh s f with
      | .error e => (c1, .error e)
      | .ok c2 => (c2, .ok ())

/-! ### Untyped JSON ingestion (`object.rs` lines 96-106) -/

/-- The shape of a `serde_json::Number`: a non-negative integer (stored as
`u64`), a negative integer (stored as `i64`), or a float. Payloads the
conversion never inspects are elided. -/
inductive JsonNumber where
  | posInt (n : Nat)
  | negInt (n : Int)
  | float
deriving DecidableEq

/-- `serde_json::Number::as_i64`. -/
def JsonNumber.asI64 : JsonNumber → Option Int
  | .posInt n => if (n : Int) ≤ 2 ^ 63 - 1 then some n else none
  | .negInt n => some n
  | .float => none

/-- A `serde_json::Value`; payloads the conversion never inspects are
elided. -/
inductive JsonValue where
  | null
  | bool (b : Bool)
  | num (n : JsonNumber)
  | str (s : String)
  | arr
  | obj
deriving DecidableEq

/-- `impl From<serde_json::Value> for PropValue` (object.rs lines 96-106).
The Rust impl is an infallible `From`: on a `Number` it calls
`.as_i64().unwrap()` and on anything that is neither `String` nor `Number`
it invokes `panic!`. Since the signature has no error channel, a `none`
result here models a PANIC, not a returned error value. -/
def propValueFromJsonValue : JsonValue → Option PropValue
  | .str s => some (.str s)
  | .num n =>
    match n.asI64 with
    | some i => some (.num i)
    | none => none
  | _ => none

/-- Written from the spec sentence for comparison: only JSON strings and
i64-representable integers convert successfully. -/
def specJsonConvertible : JsonValue → Bool
  | .str _ => true
  | .num n => n.asI64.isSome
  | _ => false

/-! ### Spec comparator for the like-pattern compiler (claim C6) -/

/-- Written from the spec sentence: inside a token every `*` becomes `\w*`,
every other character is a regex-escaped literal, and the token is wrapped
in `\b...\b`. -/
def specTokenRegex (t : List Char) : List Char :=
  ['\\', 'b'] ++
    (t.map (fun c => if c = '*' then ['\\', 'w', '*'] else regexEscapeChar c)).flatten ++
    ['\\', 'b']

/-- Written from the spec sentence: split the pattern on single spaces,
discard empty tokens, turn each token into its word regex, join the tokens
in order with `.*?` and prefix the case-insensitive mode marker. -/
def specLikeRegex (pattern : String) : String :=
  let toks := (splitOnChar ' ' pattern.data).filter (fun w => w ≠ [])
  String.mk (['(', '?', 'i', ')'] ++ joinSepList ['.', '*', '?'] (toks.map specTokenRegex))

/-! ### Auxiliary notions for the store proofs -/

/-- Decidable equality for `Except` results, used to state concrete
counterexamples. -/
instance {ε α : Type} [DecidableEq ε] [DecidableEq α] : DecidableEq (Except ε α) := fun x y =>
  match x, y with
  | .ok a, .ok b =>
    if h : a = b then .isTrue (by rw [h]) else .isFalse (by simp [h])
  | .error a, .error b =>
    if h : a = b then .isTrue (by rw [h]) else .isFalse (by simp [h])
  | .ok _, .error _ => .isFalse (by simp)
  | .error _, .ok _ => .isFalse (by simp)

/-- `IFNULL(MAX(..), 0)` over a list of integers. -/
def maxIntD (l : List Int) : Int :=
  (maxInt? l).getD 0

/-- `IFNULL(MAX(serial), 0)` over the checkpoints table. -/
def maxCkptSerialD (s : StoreState) : Int :=
  maxIntD (s.checkpoints.map (fun c => c.serial))

/-- The `objects` primary key is unique. -/
def NodupIds (rows : List Row) : Prop :=
  List.Pairwise (fun r1 r2 => r1.objectId ≠ r2.objectId) rows

/-- The object a read through the store observes at a given id: the unique
row's properties with `object_id` injected, as `Collection::iter` returns
them. -/
def obsLookup (rows : List Row) (oid : Int) : Option Obj :=
  (rows.find? (fun r => r.objectId == oid)).map obsProps

/-- Two `objects` tables are observably identical: same multiset of ids and
the same observed object at every id. -/
def RowsEquiv (a b : List Row) : Prop :=
  (∀ oid, countId a oid = countId b oid) ∧ (∀ oid, obsLookup a oid = obsLookup b oid)

/-- `RowsEquiv` lifted to fallible results: both fail identically or both
succeed with observably identical tables. -/
def ExcRowsEquiv : Except StoreErr (List Row) → Except StoreErr (List Row) → Prop
  | .error e1, .error e2 => e1 = e2
  | .ok a, .ok b => RowsEquiv a b
  | _, _ => False

/-- The committed store states reachable through the public API: a freshly
opened store, a committed checkpoint (a dropped checkpoint rolls back and
does not change the state), or a successful undo. -/
inductive Reachable : StoreState → Prop where
  | init : Reachable StoreState.emptyStore
  | commit (s : StoreState) (muts : List Mutation) (desc : String) :
      Reachable s → Reachable (s.commitCheckpoint muts desc)
  | undoStep (s : StoreState) (d : Option String) (t : StoreState) :
      Reachable s → s.undo = .ok (d, t) → Reachable t

/-- The checkpoint-table invariant maintained by every reachable state:
checkpoint ids strictly increase in insertion order, serials are
non-decreasing and non-negative, every positive checkpoint serial is
witnessed by a change entry with exactly that serial, and change serials
are positive. -/
def StoreInv (s : StoreState) : Prop :=
  List.Pairwise (fun a b => a.checkpointId < b.checkpointId) s.checkpoints ∧
  List.Pairwise (fun a b => a.serial ≤ b.serial) s.checkpoints ∧
  (∀ c ∈ s.checkpoints, 0 ≤ c.serial) ∧
  (∀ c ∈ s.checkpoints, c.serial = 0 ∨ ∃ e ∈ s.changes, e.serial = c.serial) ∧
  (∀ e ∈ s.changes, 1 ≤ e.serial)

/-- The relation between a well-formed state and the state after some
mutations ran inside the open checkpoint: the change log grew by a block E
of fresh, strictly increasing serials, checkpoints are untouched, row ids
stay unique and below the id sequence, and replaying the inverses of E in
reverse order from the new rows succeeds and restores the original rows up
to observation. -/
def ReplaySpec (s s' : StoreState) : Prop :=
  ∃ E, s'.changes = s.changes ++ E ∧
    s'.checkpoints = s.checkpoints ∧
    List.Pairwise (fun a b => a.serial < b.serial) E ∧
    (∀ e ∈ E, maxSerialD s.changes < e.serial) ∧
    (∀ e ∈ s'.changes, 1 ≤ e.serial) ∧
    NodupIds s'.rows ∧
    (∀ r ∈ s'.rows, r.objectId < s'.nextObjectId) ∧
    s.nextObjectId ≤ s'.nextObjectId ∧
    ∃ res, applyInverses s'.rows E.reverse = .ok res ∧ RowsEquiv res s.rows

/-! ## Basic lemmas about objects -/

theorem lookupProp_insertProp_self (o : Obj) (k : String) (v : PropValue) :
    (o.insertProp k v).lookupProp k = some v := by
  induction o with
  | nil => simp [Obj.insertProp, Obj.lookupProp]
  | cons kv rest ih =>
    obtain ⟨k1, v1⟩ := kv
    by_cases h1 : k < k1
    · simp [Obj.insertProp, h1, Obj.lookupProp]
    · by_cases h2 : k = k1
      · simp [Obj.insertProp, h1, h2, Obj.lookupProp]
      · simp [Obj.insertProp, h1, h2, Obj.lookupProp, ih]

theorem insertProp_insertProp_self (o : Obj) (k : String) (v : PropValue) :
    (o.insertProp k v).insertProp k v = o.insertProp k v := by
  induction o with
  | nil => simp [Obj.insertProp]
  | cons kv rest ih =>
    obtain ⟨k1, v1⟩ := kv
    by_cases h1 : k < k1
    · simp [Obj.insertProp, h1]
    · by_cases h2 : k = k1
      · simp [Obj.insertProp, h1, h2]
      · simp [Obj.insertProp, h1, h2, ih]

theorem obsProps_reinsert (r : Row) :
    obsProps ⟨r.objectId, obsProps r⟩ = obsProps r := by
  simp [obsProps, insertProp_insertProp_self]

/-! ## Claim C2: the reserved identity key in the query compiler

The spec standardises the reserved key as `object_id`, but
`QueryNode::equal_to_sql_clause` (query.rs line 68) and `QueryBuilder::id`
(query_builder.rs line 37) both use the hyphenated `"object-id"`; the name
`"object_id"` is compiled as an ordinary JSON property extraction. -/

/-- C2 counterexample: compiling `PropEqual { name: "object_id", value: 1 }`
does NOT produce the identity-column comparison the claim describes; it
produces a JSON property extraction. -/
theorem object_id_underscore_is_not_identity_key :
    (equalToSqlClause "object_id" (PropValue.num 1)).1 ≠ "object_id = ?" ∧
    equalToSqlClause "object_id" (PropValue.num 1) =
      ("CAST(json_extract(properties, \"$.object_id\") AS NUMBER) = ?",
       [PropValue.num 1]) := by
  constructor
  · decide
  · rfl

/-- C2 amended: the reserved identity key actually recognised by the
compiler is `"object-id"`; for every value it compiles to a direct
comparison against the identity column with the value as single parameter,
and `QueryBuilder::id` emits exactly that node. -/
theorem equal_reserved_key_targets_identity_column :
    ∀ (v : PropValue) (n : Int),
      equalToSqlClause "object-id" v = ("object_id = ?", [v]) ∧
      (QueryBuilder.empty.id n).build = QueryNode.propEqual "object-id" (PropValue.num n) := by
  intro v n
  exact ⟨by simp [equalToSqlClause], rfl⟩

/-! ## Claim C5: `And([])` versus `Empty` -/

/-- C5 counterexample: on a one-row store, executing the compilation of
`And([])` is a prepare-time SQL error (`SELECT ... WHERE ` with an empty
where-clause), while `Empty` matches the row. -/
theorem and_empty_execution_differs_from_empty :
    collectionLen [(⟨1, []⟩ : Row)] (QueryNode.and []) = .error .invalidSql ∧
    collectionLen [(⟨1, []⟩ : Row)] QueryNode.empty = .ok 1 := by
  exact ⟨rfl, rfl⟩

/-- C5 amended: `And([])` compiles to the pair `("", [])` - the empty
where-clause with no parameters - which fails at prepare time on every
store instead of matching every object, whereas `Empty` compiles to
`"1=1"` and matches every object. -/
theorem and_empty_compiles_to_empty_clause :
    QueryNode.toSqlClause (QueryNode.and []) = ("", []) ∧
    QueryNode.toSqlClause QueryNode.empty = ("1=1", []) ∧
    ∀ rows : List Row,
      collectionLen rows (QueryNode.and []) = .error .invalidSql ∧
      collectionIter rows (QueryNode.and []) = .error .invalidSql ∧
      collectionLen rows QueryNode.empty = .ok rows.length := by
  refine ⟨rfl, rfl, fun rows => ⟨rfl, rfl, ?_⟩⟩
  simp [collectionLen, QueryNode.toSqlClause, compileWhere]

/-! ## Claim C8: ingestion of untyped JSON -/

/-- C8 counterexample: `impl From<serde_json::Value> for PropValue` is an
infallible conversion that PANICS (modelled as `none`) on `null`, booleans
and floats; no error value is returned (the `From` signature has no error
channel at all). -/
theorem from_json_panics_on_non_scalars :
    propValueFromJsonValue JsonValue.null = none ∧
    propValueFromJsonValue (JsonValue.bool true) = none ∧
    propValueFromJsonValue (JsonValue.num JsonNumber.float) = none ∧
    propValueFromJsonValue JsonValue.arr = none ∧
    propValueFromJsonValue JsonValue.obj = none := by
  exact ⟨rfl, rfl, rfl, rfl, rfl⟩

/-- C8 amended: the conversion succeeds exactly on JSON strings and
i64-representable integers, and diverges (panics) on everything else
rather than returning an error value. -/
theorem from_json_succeeds_iff_string_or_i64 :
    ∀ j, (propValueFromJsonValue j).isSome = specJsonConvertible j := by
  intro j
  cases j with
  | num n => cases h : n.asI64 <;>
      simp [propValueFromJsonValue, specJsonConvertible, h]
  | _ => simp [propValueFromJsonValue, specJsonConvertible]

/-! ## Claim C6: the like-pattern compiler -/

theorem splitOnChar_ne_nil (sep : Char) (l : List Char) : splitOnChar sep l ≠ [] := by
  cases l with
  | nil => simp [splitOnChar]
  | cons c rest =>
    simp only [splitOnChar]
    cases h : splitOnChar sep rest with
    | nil => simp
    | cons t ts => by_cases hc : c = sep <;> simp [hc]

theorem joinSepList_cons_cons (sep a b : List Char) (l : List (List Char)) :
    joinSepList sep (a :: b :: l) = a ++ sep ++ joinSepList sep (b :: l) := rfl

theorem joinSepList_append_head (sep p x : List Char) (xs : List (List Char)) :
    joinSepList sep ((p ++ x) :: xs) = p ++ joinSepList sep (x :: xs) := by
  cases xs with
  | nil => simp [joinSepList]
  | cons y ys => simp [joinSepList, List.append_assoc]

theorem regexEscapeList_cons (c : Char) (t : List Char) :
    regexEscapeList (c :: t) = regexEscapeChar c ++ regexEscapeList t := by
  simp [regexEscapeList]

/-- Splitting a word on `*`, regex-escaping the pieces and re-joining them
with `\w*` is the same as the character-wise expansion the spec describes. -/
theorem joinSep_split_star (w : List Char) :
    joinSepList ['\\', 'w', '*'] ((splitOnChar '*' w).map regexEscapeList) =
      (w.map (fun c => if c = '*' then ['\\', 'w', '*'] else regexEscapeChar c)).flatten := by
  induction w with
  | nil => rfl
  | cons c rest ih =>
    cases hsp : splitOnChar '*' rest with
    | nil => exact absurd hsp (splitOnChar_ne_nil '*' rest)
    | cons t ts =>
      rw [hsp] at ih
      simp only [List.map_cons] at ih
      by_cases hc : c = '*'
      · subst hc
        simp only [splitOnChar, hsp, if_true, List.map_cons, List.flatten_cons]
        rw [show regexEscapeList [] = ([] : List Char) from rfl, joinSepList_cons_cons, ih]
        simp
      · simp only [splitOnChar, hsp, if_neg hc, List.map_cons, List.flatten_cons]
        rw [regexEscapeList_cons, joinSepList_append_head, ih]

/-- C6: for every property name and pattern, `like_to_sql_clause` emits the
JSON-extraction REGEXP clause with exactly one parameter, and that
parameter is precisely the regex the spec describes: split on single
spaces, empty tokens discarded, `*` expanded to `\w*`, other characters
regex-escaped, tokens wrapped in `\b...\b`, joined with `.*?`, prefixed
with `(?i)`. -/
theorem like_to_sql_clause_matches_spec (name pattern : String) :
    likeToSqlClause name pattern =
      ("CAST(json_extract(properties, \"$." ++ name ++ "\") AS TEXT) REGEXP ?",
       [PropValue.str (specLikeRegex pattern)]) := by
  unfold likeToSqlClause specLikeRegex
  have hword : (fun word => ['\\', 'b'] ++
        joinSepList ['\\', 'w', '*'] ((splitOnChar '*' word).map regexEscapeList) ++
        ['\\', 'b']) = specTokenRegex := by
    funext word
    rw [joinSep_split_star]
    rfl
  simp only [hword]

/-! ## Lemmas about SQL MAX and `ORDER BY ... DESC` -/

theorem maxInt?_eq_none_iff (l : List Int) : maxInt? l = none ↔ l = [] := by
  cases l <;> simp [maxInt?]

theorem maxInt?_spec (l : List Int) (m : Int) (h : maxInt? l = some m) :
    m ∈ l ∧ ∀ x ∈ l, x ≤ m := by
  induction l generalizing m with
  | nil => simp [maxInt?] at h
  | cons x xs ih =>
    cases hxs : maxInt? xs with
    | none =>
      have hnil : xs = [] := (maxInt?_eq_none_iff xs).1 hxs
      subst hnil
      simp [maxInt?] at h
      subst h
      simp
    | some m2 =>
      simp [maxInt?, hxs] at h
      subst h
      obtain ⟨hmem, hub⟩ := ih m2 hxs
      constructor
      · rcases max_cases x m2 with ⟨heq, _⟩ | ⟨heq, _⟩ <;> rw [heq]
        · exact List.mem_cons_self x xs
        · exact List.mem_cons_of_mem x hmem
      · intro y hy
        rcases List.mem_cons.1 hy with rfl | hy2
        · exact le_max_left _ _
        · exact le_trans (hub y hy2) (le_max_right _ _)

theorem maxIntD_ub (l : List Int) (x : Int) (hx : x ∈ l) : x ≤ maxIntD l := by
  cases hm : maxInt? l with
  | none =>
    rw [maxInt?_eq_none_iff] at hm
    subst hm
    simp at hx
  | some m =>
    obtain ⟨_, hub⟩ := maxInt?_spec l m hm
    simpa [maxIntD, hm] using hub x hx

theorem maxIntD_mem (l : List Int) (h : l ≠ []) : maxIntD l ∈ l := by
  cases hm : maxInt? l with
  | none => exact absurd ((maxInt?_eq_none_iff l).1 hm) h
  | some m =>
    obtain ⟨hmem, _⟩ := maxInt?_spec l m hm
    simpa [maxIntD, hm] using hmem

theorem maxIntD_le (l : List Int) (B : Int) (hB : 0 ≤ B) (h : ∀ x ∈ l, x ≤ B) :
    maxIntD l ≤ B := by
  cases hl : l with
  | nil => simpa [maxIntD, maxInt?] using hB
  | cons y ys =>
    subst hl
    exact h _ (maxIntD_mem _ (by simp))

theorem maxIntD_nonneg (l : List Int) (h : ∀ x ∈ l, 1 ≤ x) : 0 ≤ maxIntD l := by
  cases hl : l with
  | nil => simp [maxIntD, maxInt?]
  | cons y ys =>
    subst hl
    have := h _ (maxIntD_mem (y :: ys) (by simp))
    omega

theorem maxIntD_cons_of_ne_nil (x : Int) (xs : List Int) (h : xs ≠ []) :
    maxIntD (x :: xs) = max x (maxIntD xs) := by
  cases hxs : maxInt? xs with
  | none => exact absurd ((maxInt?_eq_none_iff xs).1 hxs) h
  | some m => simp [maxIntD, maxInt?, hxs]

theorem maxIntD_append_singleton (l : List Int) (y : Int) (hy : 0 ≤ y) :
    maxIntD (l ++ [y]) = max (maxIntD l) y := by
  induction l with
  | nil =>
    simp only [List.nil_append]
    show maxIntD [y] = max (maxIntD []) y
    have h1 : maxIntD [y] = y := rfl
    have h2 : maxIntD [] = 0 := rfl
    rw [h1, h2]
    omega
  | cons x xs ih =>
    have h1 : maxIntD ((x :: xs) ++ [y]) = max x (maxIntD (xs ++ [y])) := by
      rw [List.cons_append]
      exact maxIntD_cons_of_ne_nil x (xs ++ [y]) (by simp)
    rw [h1, ih]
    cases hxs : xs with
    | nil =>
      have h2 : maxIntD [x] = x := rfl
      have h3 : maxIntD ([] : List Int) = 0 := rfl
      rw [h2, h3]
      omega
    | cons z zs =>
      rw [maxIntD_cons_of_ne_nil x (z :: zs) (by simp)]
      omega

theorem mem_insertDescInt {x a : Int} {l : List Int} :
    a ∈ insertDescInt x l ↔ a = x ∨ a ∈ l := by
  induction l with
  | nil => simp [insertDescInt]
  | cons y ys ih =>
    by_cases h : x ≥ y
    · simp [insertDescInt, h]
    · simp [insertDescInt, h, ih]
      tauto

theorem sorted_insertDescInt (x : Int) (l : List Int)
    (h : List.Pairwise (fun a b => b ≤ a) l) :
    List.Pairwise (fun a b => b ≤ a) (insertDescInt x l) := by
  induction l with
  | nil => simp [insertDescInt]
  | cons y ys ih =>
    rcases List.pairwise_cons.1 h with ⟨hy, hys⟩
    by_cases hxy : x ≥ y
    · rw [insertDescInt, if_pos hxy]
      refine List.pairwise_cons.2 ⟨?_, h⟩
      intro z hz
      rcases List.mem_cons.1 hz with rfl | hz2
      · exact hxy
      · exact le_trans (hy z hz2) hxy
    · rw [insertDescInt, if_neg hxy]
      refine List.pairwise_cons.2 ⟨?_, ih hys⟩
      intro z hz
      rcases mem_insertDescInt.1 hz with rfl | hz2
      · omega
      · exact hy z hz2

theorem mem_sortDescInt {a : Int} {l : List Int} : a ∈ sortDescInt l ↔ a ∈ l := by
  induction l with
  | nil => simp [sortDescInt]
  | cons y ys ih =>
    show a ∈ insertDescInt y (sortDescInt ys) ↔ _
    rw [mem_insertDescInt]
    simp [ih]

theorem sorted_sortDescInt (l : List Int) :
    List.Pairwise (fun a b => b ≤ a) (sortDescInt l) := by
  induction l with
  | nil => simp [sortDescInt]
  | cons y ys ih => exact sorted_insertDescInt y (sortDescInt ys) ih

theorem sortDescInt_eq_nil_iff (l : List Int) : sortDescInt l = [] ↔ l = [] := by
  constructor
  · intro h
    cases hl : l with
    | nil => rfl
    | cons y ys =>
      have : y ∈ sortDescInt l := mem_sortDescInt.2 (by simp [hl])
      rw [h] at this
      simp at this
  · intro h
    subst h
    rfl

theorem head_ge_of_sorted_desc (x : Int) (xs : List Int)
    (h : List.Pairwise (fun a b => b ≤ a) (x :: xs)) :
    ∀ a ∈ x :: xs, a ≤ x := by
  intro a ha
  rcases List.mem_cons.1 ha with rfl | ha2
  · exact le_refl a
  · exact (List.pairwise_cons.1 h).1 a ha2

/-- The head of the descending sort is the SQL `MAX` (0 when empty, matching
`IFNULL(..., 0)`). -/
theorem headD_sortDescInt_eq_maxIntD (l : List Int) :
    (sortDescInt l).head?.getD 0 = maxIntD l := by
  cases hl : l with
  | nil => rfl
  | cons y ys =>
    have hne : l ≠ [] := by simp [hl]
    rw [← hl]
    cases hs : sortDescInt l with
    | nil => exact absurd ((sortDescInt_eq_nil_iff l).1 hs) hne
    | cons x xs =>
      simp only [List.head?_cons, Option.getD_some]
      have hxmem : x ∈ l := mem_sortDescInt.1 (by rw [hs]; simp)
      have hmax_mem : maxIntD l ∈ sortDescInt l := mem_sortDescInt.2 (maxIntD_mem l hne)
      rw [hs] at hmax_mem
      have h1 : x ≤ maxIntD l := maxIntD_ub l x hxmem
      have h2 : maxIntD l ≤ x := by
        have hsorted := sorted_sortDescInt l
        rw [hs] at hsorted
        exact head_ge_of_sorted_desc x xs hsorted _ hmax_mem
      omega

theorem sortDescInt_append_max (l : List Int) (m : Int) (h : ∀ x ∈ l, x < m) :
    sortDescInt (l ++ [m]) = m :: sortDescInt l := by
  induction l with
  | nil => rfl
  | cons x xs ih =>
    have hx : x < m := h x (by simp)
    have hxs : ∀ y ∈ xs, y < m := fun y hy => h y (by simp [hy])
    show insertDescInt x (sortDescInt (xs ++ [m])) = m :: insertDescInt x (sortDescInt xs)
    rw [ih hxs]
    rw [insertDescInt, if_neg (by omega)]

/-! ## Claim C4: `last_checkpoint_id` and `modified_since` -/

/-- C4 counterexample: on a store that has never been checkpointed,
`last_checkpoint_id()` returns the `QueryReturnedNoRows` database error, not
0, and `modified_since` propagates that error instead of returning true. -/
theorem last_checkpoint_id_errors_on_empty_store :
    StoreState.emptyStore.lastCheckpointId = .error .queryReturnedNoRows ∧
    StoreState.emptyStore.lastCheckpointId ≠ .ok 0 ∧
    StoreState.emptyStore.modifiedSince 0 = .error .queryReturnedNoRows := by
  refine ⟨rfl, by decide, rfl⟩

/-- C4 amended: whenever at least one checkpoint exists,
`last_checkpoint_id()` returns the largest checkpoint id and
`modified_since(a)` returns `a != last`; on a store with no checkpoints both
return the `QueryReturnedNoRows` error instead of treating the id as 0. -/
theorem last_checkpoint_id_returns_largest (s : StoreState) (a : Int)
    (h : s.checkpoints ≠ []) :
    s.lastCheckpointId = .ok (maxIntD (s.checkpoints.map (fun c => c.checkpointId))) ∧
    maxIntD (s.checkpoints.map (fun c => c.checkpointId)) ∈
      s.checkpoints.map (fun c => c.checkpointId) ∧
    (∀ c ∈ s.checkpoints,
      c.checkpointId ≤ maxIntD (s.checkpoints.map (fun c => c.checkpointId))) ∧
    s.modifiedSince a =
      .ok (a != maxIntD (s.checkpoints.map (fun c => c.checkpointId))) := by
  have hne : s.checkpoints.map (fun c => c.checkpointId) ≠ [] := by
    simpa using h
  have hok : s.lastCheckpointId =
      .ok (maxIntD (s.checkpoints.map (fun c => c.checkpointId))) := by
    unfold StoreState.lastCheckpointId
    cases hs : sortDescInt (s.checkpoints.map (fun c => c.checkpointId)) with
    | nil => exact absurd ((sortDescInt_eq_nil_iff _).1 hs) hne
    | cons x xs =>
      have := headD_sortDescInt_eq_maxIntD (s.checkpoints.map (fun c => c.checkpointId))
      rw [hs] at this
      simp only [List.head?_cons, Option.getD_some] at this
      rw [this]
  refine ⟨hok, maxIntD_mem _ hne, ?_, ?_⟩
  · intro c hc
    exact maxIntD_ub _ _ (List.mem_map.2 ⟨c, hc, rfl⟩)
  · unfold StoreState.modifiedSince
    rw [hok]
    rfl

/-- C4 witness: `last_checkpoint_id_returns_largest` applied to a concrete
one-checkpoint store. -/
theorem last_checkpoint_id_returns_largest_witness :
    ((⟨1, [], [], [⟨1, 0, "a"⟩]⟩ : StoreState).checkpoints ≠ []) ∧
    (⟨1, [], [], [⟨1, 0, "a"⟩]⟩ : StoreState).lastCheckpointId =
      .ok (maxIntD ((⟨1, [], [], [⟨1, 0, "a"⟩]⟩ : StoreState).checkpoints.map
        (fun c => c.checkpointId))) := by
  have h : ((⟨1, [], [], [⟨1, 0, "a"⟩]⟩ : StoreState).checkpoints ≠ []) := by decide
  exact ⟨h, (last_checkpoint_id_returns_largest _ 0 h).1⟩

/-! ## Monadic reduction helpers -/

theorem exc_bind_ok {ε α β : Type} (a : α) (f : α → Except ε β) :
    (Except.ok a : Except ε α) >>= f = f a := rfl

theorem exc_bind_error {ε α β : Type} (e : ε) (f : α → Except ε β) :
    (Except.error e : Except ε α) >>= f = Except.error e := rfl

/-! ## Claim C9: iterated objects always carry a numeric `object_id` -/

/-- C9: every object yielded by `Collection::iter` binds `"object_id"` to a
`Number` (the id injected at store.rs line 525), so the
`object["object_id"].as_number().unwrap()` calls in
`MutableCollection::delete` / `set` never panic on iterated objects. -/
theorem iter_injects_numeric_object_id (rows : List Row) (q : QueryNode)
    (objs : List Obj) (h : collectionIter rows q = .ok objs) :
    ∀ o ∈ objs, ∃ n : Int, o.lookupProp "object_id" = some (.num n) ∧
      (o.lookupProp "object_id").bind PropValue.asNumber = some n := by
  intro o ho
  unfold collectionIter at h
  cases hcw : compileWhere q.toSqlClause.1 q.toSqlClause.2 with
  | none =>
    rw [hcw] at h
    exact absurd h (by simp)
  | some f =>
    rw [hcw] at h
    simp only [Except.ok.injEq] at h
    subst h
    rcases List.mem_map.1 ho with ⟨r, _, rfl⟩
    refine ⟨r.objectId, lookupProp_insertProp_self _ _ _, ?_⟩
    rw [show (obsProps r).lookupProp "object_id" = some (.num r.objectId) from
      lookupProp_insertProp_self _ _ _]
    rfl

/-- C9 witness: `iter_injects_numeric_object_id` applied to a concrete
one-row store. -/
theorem iter_injects_numeric_object_id_witness :
    collectionIter [(⟨1, []⟩ : Row)] QueryNode.empty =
      .ok [[("object_id", PropValue.num 1)]] ∧
    ∃ n : Int,
      Obj.lookupProp [("object_id", PropValue.num 1)] "object_id" =
        some (.num n) ∧
      (Obj.lookupProp [("object_id", PropValue.num 1)] "object_id").bind
        PropValue.asNumber = some n := by
  refine ⟨rfl, ?_⟩
  exact iter_injects_numeric_object_id [⟨1, []⟩] QueryNode.empty
    [[("object_id", PropValue.num 1)]] rfl _ (by simp)

/-! ## Claim C10: `refresh_if_needed` is not atomic on error -/

/-- C10: when the cache is invalid and the re-query (or mapping) fails,
`refresh_if_needed` has already advanced the captured checkpoint id, so the
error is returned while `valid(store)` now reports `true` and
`iter()`/`len()` still serve the stale pre-refresh objects. -/
theorem refresh_if_needed_advances_id_before_refresh {O : Type}
    (c : CachedMapping O) (s : StoreState)
    (f : Obj → StoreState → Except StoreErr O) (n : Int) (err : StoreErr)
    (hlast : s.lastCheckpointId = .ok n)
    (hinvalid : c.fetchedAtCheckpoint ≠ n)
    (hrefresh : CachedMapping.refresh { c with fetchedAtCheckpoint := n } s f =
      .error err) :
    c.refreshIfNeeded s f = ({ c with fetchedAtCheckpoint := n }, .error err) ∧
    ({ c with fetchedAtCheckpoint := n } : CachedMapping O).objects = c.objects ∧
    CachedMapping.valid { c with fetchedAtCheckpoint := n } s = .ok true := by
  have hmod : s.modifiedSince c.fetchedAtCheckpoint = .ok true := by
    unfold StoreState.modifiedSince
    rw [hlast, exc_bind_ok]
    simp [bne_iff_ne, hinvalid]
  have hmod2 : s.modifiedSince n = .ok false := by
    unfold StoreState.modifiedSince
    rw [hlast, exc_bind_ok]
    simp
  have hvalid : c.valid s = .ok false := by
    unfold CachedMapping.valid
    rw [hmod, exc_bind_ok]
    rfl
  have hvalid2 : CachedMapping.valid { c with fetchedAtCheckpoint := n } s = .ok true := by
    unfold CachedMapping.valid
    simp only [hmod2, exc_bind_ok]
    rfl
  refine ⟨?_, rfl, hvalid2⟩
  simp only [CachedMapping.refreshIfNeeded, hvalid, hlast, hrefresh]

/-- C10 witness: `refresh_if_needed_advances_id_before_refresh` applied to a
one-checkpoint store with a failing mapping function. -/
theorem refresh_if_needed_advances_id_witness :
    (⟨2, [⟨1, []⟩], [], [⟨1, 0, "a"⟩]⟩ : StoreState).lastCheckpointId = .ok 1 ∧
    (0 : Int) ≠ 1 ∧
    CachedMapping.refreshIfNeeded
        (⟨0, QueryNode.empty, []⟩ : CachedMapping Obj)
        (⟨2, [⟨1, []⟩], [], [⟨1, 0, "a"⟩]⟩ : StoreState)
        (fun _ _ => .error .usage) =
      ((⟨1, QueryNode.empty, []⟩ : CachedMapping Obj), .error .usage) := by
  refine ⟨rfl, by decide, ?_⟩
  exact (refresh_if_needed_advances_id_before_refresh
    (⟨0, QueryNode.empty, []⟩ : CachedMapping Obj)
    (⟨2, [⟨1, []⟩], [], [⟨1, 0, "a"⟩]⟩ : StoreState)
    (fun _ _ => .error .usage) 1 .usage rfl (by decide) rfl).1

/-! ## Claim C3: `add` followed by `query(Q.id(k)).one()` -/

theorem commit_single_add_rows (s : StoreState) (o : Obj) (desc : String) :
    (s.commitCheckpoint [Mutation.addObj o] desc).rows =
      s.rows ++ [⟨s.nextObjectId, o⟩] := by
  simp [StoreState.commitCheckpoint, StoreState.applyMutations,
        StoreState.applyMutation, StoreState.recordChange]

/-- C3: in any store whose row ids are below the id sequence (true of every
reachable store), after a checkpoint's `add(o)` on an object without
`"object_id"` returns id k and is committed, `query(Q.id(k)).one()` returns
exactly o extended with `object_id = k`. -/
theorem add_then_query_id_one (s : StoreState) (o : Obj) (desc : String)
    (hBound : ∀ r ∈ s.rows, r.objectId < s.nextObjectId)
    (hNoId : o.lookupProp "object_id" = none) :
    collectionOne (s.commitCheckpoint [Mutation.addObj o] desc).rows
        ((QueryBuilder.empty.id s.nextObjectId).build) =
      .ok (o.insertProp "object_id" (PropValue.num s.nextObjectId)) := by
  have hnode : (QueryBuilder.empty.id s.nextObjectId).build =
      QueryNode.propEqual "object-id" (PropValue.num s.nextObjectId) := rfl
  have hclause : (QueryNode.propEqual "object-id"
      (PropValue.num s.nextObjectId)).toSqlClause =
      ("object_id = ?", [PropValue.num s.nextObjectId]) := by
    simp [QueryNode.toSqlClause, equalToSqlClause]
  have hcw : compileWhere "object_id = ?" [PropValue.num s.nextObjectId] =
      some (fun r => r.objectId == s.nextObjectId) := by
    rfl
  have hfilter : (s.commitCheckpoint [Mutation.addObj o] desc).rows.filter
      (fun r => r.objectId == s.nextObjectId) = [⟨s.nextObjectId, o⟩] := by
    rw [commit_single_add_rows, List.filter_append]
    have h1 : s.rows.filter (fun r => r.objectId == s.nextObjectId) = [] := by
      rw [List.filter_eq_nil_iff]
      intro r hr
      have := hBound r hr
      simp only [beq_iff_eq]
      omega
    rw [h1]
    simp
  have hiter : collectionIter (s.commitCheckpoint [Mutation.addObj o] desc).rows
      ((QueryBuilder.empty.id s.nextObjectId).build) =
      .ok [obsProps ⟨s.nextObjectId, o⟩] := by
    unfold collectionIter
    rw [hnode, hclause]
    rw [show compileWhere ("object_id = ?", [PropValue.num s.nextObjectId]).1
        ("object_id = ?", [PropValue.num s.nextObjectId]).2 =
        some (fun r => r.objectId == s.nextObjectId) from hcw]
    show Except.ok (((s.commitCheckpoint [Mutation.addObj o] desc).rows.filter
      (fun r => r.objectId == s.nextObjectId)).map obsProps) = _
    rw [hfilter]
    rfl
  have hlen : collectionLen (s.commitCheckpoint [Mutation.addObj o] desc).rows
      ((QueryBuilder.empty.id s.nextObjectId).build) = .ok 1 := by
    unfold collectionLen
    rw [hnode, hclause]
    rw [show compileWhere ("object_id = ?", [PropValue.num s.nextObjectId]).1
        ("object_id = ?", [PropValue.num s.nextObjectId]).2 =
        some (fun r => r.objectId == s.nextObjectId) from hcw]
    show Except.ok ((s.commitCheckpoint [Mutation.addObj o] desc).rows.filter
      (fun r => r.objectId == s.nextObjectId)).length = _
    rw [hfilter]
    rfl
  unfold collectionOne
  rw [hiter, hlen, exc_bind_ok, exc_bind_ok]
  rfl

/-- C3 witness: `add_then_query_id_one` applied from the empty store. -/
theorem add_then_query_id_one_witness :
    (∀ r ∈ StoreState.emptyStore.rows, r.objectId < StoreState.emptyStore.nextObjectId) ∧
    Obj.lookupProp [("name", PropValue.str "one")] "object_id" = none ∧
    collectionOne (StoreState.emptyStore.commitCheckpoint
        [Mutation.addObj [("name", PropValue.str "one")]] "populate store").rows
        ((QueryBuilder.empty.id StoreState.emptyStore.nextObjectId).build) =
      .ok (Obj.insertProp [("name", PropValue.str "one")] "object_id"
        (PropValue.num StoreState.emptyStore.nextObjectId)) := by
  refine ⟨by simp [StoreState.emptyStore], rfl, ?_⟩
  exact add_then_query_id_one StoreState.emptyStore [("name", PropValue.str "one")]
    "populate store" (by simp [StoreState.emptyStore]) rfl

/-! ## Row-table lemmas for the undo proofs -/

theorem countId_nil (oid : Int) : countId [] oid = 0 := rfl

theorem countId_append (a b : List Row) (oid : Int) :
    countId (a ++ b) oid = countId a oid + countId b oid := by
  simp [countId, List.filter_append]

theorem countId_eq_zero_iff (rows : List Row) (oid : Int) :
    countId rows oid = 0 ↔ ∀ r ∈ rows, r.objectId ≠ oid := by
  simp [countId, List.length_eq_zero, List.filter_eq_nil_iff]

theorem countId_singleton (r : Row) (oid : Int) :
    countId [r] oid = if r.objectId = oid then 1 else 0 := by
  by_cases h : r.objectId = oid <;> simp [countId, h]

theorem countId_pos_of_mem {rows : List Row} {r : Row} (hr : r ∈ rows)
    (oid : Int) (h : r.objectId = oid) : 0 < countId rows oid := by
  have : r ∈ rows.filter (fun x => x.objectId == oid) :=
    List.mem_filter.2 ⟨hr, by simp [h]⟩
  have := List.length_pos.2 (List.ne_nil_of_mem this)
  simpa [countId] using this

theorem countId_cons (r : Row) (rest : List Row) (oid : Int) :
    countId (r :: rest) oid =
      (if r.objectId = oid then 1 else 0) + countId rest oid := by
  by_cases hid : r.objectId = oid <;> simp [countId, List.filter_cons, hid] <;> omega

theorem countId_le_one_of_nodup (rows : List Row) (oid : Int) (h : NodupIds rows) :
    countId rows oid ≤ 1 := by
  induction rows with
  | nil => simp [countId]
  | cons r rest ih =>
    rcases List.pairwise_cons.1 h with ⟨hr, hrest⟩
    have ihr := ih hrest
    rw [countId_cons]
    by_cases hid : r.objectId = oid
    · have hz : countId rest oid = 0 := by
        rw [countId_eq_zero_iff]
        intro x hx
        have := hr x hx
        omega
      rw [if_pos hid, hz]
    · rw [if_neg hid]
      omega

theorem countId_eq_one_of_nodup_mem {rows : List Row} {r : Row} (h : NodupIds rows)
    (hr : r ∈ rows) {oid : Int} (hid : r.objectId = oid) : countId rows oid = 1 := by
  have h1 := countId_pos_of_mem hr oid hid
  have h2 := countId_le_one_of_nodup rows oid h
  omega

theorem find?_eq_none_iff_countId (rows : List Row) (oid : Int) :
    rows.find? (fun r => r.objectId == oid) = none ↔ ∀ r ∈ rows, r.objectId ≠ oid := by
  rw [List.find?_eq_none]
  simp

theorem find?_eq_some_of_nodup_mem {rows : List Row} {r : Row} (h : NodupIds rows)
    (hr : r ∈ rows) {oid : Int} (hid : r.objectId = oid) :
    rows.find? (fun x => x.objectId == oid) = some r := by
  induction rows with
  | nil => simp at hr
  | cons x rest ih =>
    rcases List.pairwise_cons.1 h with ⟨hx, hrest⟩
    rcases List.mem_cons.1 hr with rfl | hr2
    · simp [List.find?_cons, hid]
    · have hxid : x.objectId ≠ oid := by
        have := hx r hr2
        omega
      have hb : (x.objectId == oid) = false := by simp [hxid]
      rw [List.find?_cons]
      simp only [hb]
      exact ih hrest hr2

theorem eq_of_mem_nodupIds {rows : List Row} (h : NodupIds rows) {x y : Row}
    (hx : x ∈ rows) (hy : y ∈ rows) (hxy : x.objectId = y.objectId) : x = y := by
  induction rows with
  | nil => simp at hx
  | cons r rest ih =>
    rcases List.pairwise_cons.1 h with ⟨hr, hrest⟩
    rcases List.mem_cons.1 hx with rfl | hx2
    · rcases List.mem_cons.1 hy with rfl | hy2
      · rfl
      · exact absurd hxy (hr y hy2)
    · rcases List.mem_cons.1 hy with rfl | hy2
      · exact absurd hxy.symm (hr x hx2)
      · exact ih hrest hx2 hy2

theorem countId_map_of_id (f : Row → Row) (hf : ∀ r, (f r).objectId = r.objectId)
    (rows : List Row) (oid : Int) : countId (rows.map f) oid = countId rows oid := by
  induction rows with
  | nil => rfl
  | cons r rest ih =>
    by_cases h : r.objectId = oid
    · simp [countId, List.filter_cons, hf, h] at ih ⊢
      omega
    · simp [countId, List.filter_cons, hf, h] at ih ⊢
      exact ih

theorem find?_map_of_id (f : Row → Row) (hf : ∀ r, (f r).objectId = r.objectId)
    (rows : List Row) (oid : Int) :
    (rows.map f).find? (fun r => r.objectId == oid) =
      (rows.find? (fun r => r.objectId == oid)).map f := by
  induction rows with
  | nil => rfl
  | cons r rest ih =>
    by_cases h : r.objectId = oid
    · simp [List.find?_cons, hf, h]
    · have hb : (r.objectId == oid) = false := by simp [h]
      have hfb : ((f r).objectId == oid) = false := by simp [hf, h]
      simp only [List.map_cons, List.find?_cons, hb, hfb]
      exact ih

theorem nodupIds_filter (p : Row → Bool) {rows : List Row} (h : NodupIds rows) :
    NodupIds (rows.filter p) :=
  List.Pairwise.filter p h

theorem nodupIds_map_of_id (f : Row → Row) (hf : ∀ r, (f r).objectId = r.objectId)
    {rows : List Row} (h : NodupIds rows) : NodupIds (rows.map f) := by
  rw [NodupIds, List.pairwise_map]
  exact h.imp (by intro a b hab; rw [hf, hf]; exact hab)

theorem nodupIds_reverse {rows : List Row} (h : NodupIds rows) :
    NodupIds rows.reverse := by
  rw [NodupIds, List.pairwise_reverse]
  exact h.imp (by intro a b hab; exact hab.symm)

theorem countId_reverse (rows : List Row) (oid : Int) :
    countId rows.reverse oid = countId rows oid := by
  simp [countId, List.filter_reverse]

theorem obsLookup_append (a b : List Row) (oid : Int) :
    obsLookup (a ++ b) oid = (obsLookup a oid).or (obsLookup b oid) := by
  unfold obsLookup
  rw [List.find?_append]
  cases a.find? (fun r => r.objectId == oid) <;> simp

theorem obsLookup_eq_none_iff (rows : List Row) (oid : Int) :
    obsLookup rows oid = none ↔ ∀ r ∈ rows, r.objectId ≠ oid := by
  unfold obsLookup
  rw [Option.map_eq_none']
  exact find?_eq_none_iff_countId rows oid

theorem countId_filter_partition (rows : List Row) (p : Row → Bool) (oid : Int) :
    countId (rows.filter p) oid + countId (rows.filter (fun r => !p r)) oid =
      countId rows oid := by
  induction rows with
  | nil => rfl
  | cons r rest ih =>
    cases hp : p r <;> by_cases hid : r.objectId = oid <;>
      simp [countId, List.filter_cons, hp, hid] at ih ⊢ <;> omega

theorem countId_filter_ne (rows : List Row) (k oid : Int) :
    countId (rows.filter (fun r => !(r.objectId == k))) oid =
      if oid = k then 0 else countId rows oid := by
  induction rows with
  | nil => simp [countId]
  | cons r rest ih =>
    by_cases hk : r.objectId = k <;> by_cases hoid : r.objectId = oid <;>
      by_cases hok : oid = k <;>
      simp_all [countId, List.filter_cons] <;> omega

theorem obsLookup_filter_ne (rows : List Row) (k oid : Int) :
    obsLookup (rows.filter (fun r => !(r.objectId == k))) oid =
      if oid = k then none else obsLookup rows oid := by
  induction rows with
  | nil => simp [obsLookup]
  | cons r rest ih =>
    unfold obsLookup at ih ⊢
    by_cases hk : r.objectId = k <;> by_cases hoid : r.objectId = oid <;>
      by_cases hok : oid = k <;>
      simp_all [List.filter_cons, List.find?_cons] <;> omega

/-! ## Observable equivalence and congruence of the undo replay -/

theorem rowsEquiv_refl (a : List Row) : RowsEquiv a a :=
  ⟨fun _ => rfl, fun _ => rfl⟩

theorem rowsEquiv_trans {a b c : List Row} (h1 : RowsEquiv a b) (h2 : RowsEquiv b c) :
    RowsEquiv a c :=
  ⟨fun oid => (h1.1 oid).trans (h2.1 oid), fun oid => (h1.2 oid).trans (h2.2 oid)⟩

theorem row_upd_eq (r : Row) (k : Int) (p : Obj) (h : r.objectId = k) :
    (if r.objectId == k then { r with properties := p } else r) = (⟨k, p⟩ : Row) := by
  cases r
  simp_all

theorem applyInverse_congr {a b : List Row} (h : RowsEquiv a b) (e : ChangeEntry) :
    ExcRowsEquiv (applyInverse a e) (applyInverse b e) := by
  obtain ⟨hc, hl⟩ := h
  cases hact : e.action with
  | add =>
    simp only [applyInverse, hact]
    rw [hc e.objectId]
    by_cases hcount : countId b e.objectId = 1
    · rw [if_pos hcount, if_pos hcount]
      refine ⟨fun oid => ?_, fun oid => ?_⟩
      · rw [countId_filter_ne, countId_filter_ne]
        by_cases hoid : oid = e.objectId <;> simp [hoid, hc oid]
      · rw [obsLookup_filter_ne, obsLookup_filter_ne]
        by_cases hoid : oid = e.objectId <;> simp [hoid, hl oid]
    · rw [if_neg hcount, if_neg hcount]
      rfl
  | delete =>
    simp only [applyInverse, hact]
    rw [hc e.objectId]
    by_cases hcount : countId b e.objectId = 0
    · rw [if_pos hcount, if_pos hcount]
      refine ⟨fun oid => ?_, fun oid => ?_⟩
      · rw [countId_append, countId_append, hc oid]
      · rw [obsLookup_append, obsLookup_append, hl oid]
    · rw [if_neg hcount, if_neg hcount]
      rfl
  | update =>
    simp only [applyInverse, hact]
    rw [hc e.objectId]
    by_cases hcount : countId b e.objectId = 1
    · rw [if_pos hcount, if_pos hcount]
      have hfid : ∀ r : Row, ((if r.objectId == e.objectId then
          { r with properties := e.previous } else r) : Row).objectId = r.objectId := by
        intro r
        by_cases hr : r.objectId = e.objectId <;> simp [hr]
      refine ⟨fun oid => ?_, fun oid => ?_⟩
      · rw [countId_map_of_id _ hfid, countId_map_of_id _ hfid, hc oid]
      · unfold obsLookup
        rw [find?_map_of_id _ hfid, find?_map_of_id _ hfid]
        have hla := hl oid
        unfold obsLookup at hla
        cases hfa : a.find? (fun r => r.objectId == oid) with
        | none =>
          rw [hfa] at hla
          cases hfb : b.find? (fun r => r.objectId == oid) with
          | none => rfl
          | some rb => rw [hfb] at hla; simp at hla
        | some ra =>
          rw [hfa] at hla
          cases hfb : b.find? (fun r => r.objectId == oid) with
          | none => rw [hfb] at hla; simp at hla
          | some rb =>
            rw [hfb] at hla
            simp only [Option.map_some'] at hla ⊢
            have hida : ra.objectId = oid := by
              have := List.find?_some hfa
              simpa using this
            have hidb : rb.objectId = oid := by
              have := List.find?_some hfb
              simpa using this
            simp only [Option.some.injEq] at hla
            by_cases hoid : oid = e.objectId
            · rw [row_upd_eq ra e.objectId e.previous (by omega),
                  row_upd_eq rb e.objectId e.previous (by omega)]
            · have hba : (ra.objectId == e.objectId) = false := by
                rw [beq_eq_false_iff_ne]
                omega
              have hbb : (rb.objectId == e.objectId) = false := by
                rw [beq_eq_false_iff_ne]
                omega
              simp only [hba, hbb, if_false, hla]
              simp [hla]
    · rw [if_neg hcount, if_neg hcount]
      rfl

theorem applyInverses_congr {a b : List Row} (h : RowsEquiv a b)
    (es : List ChangeEntry) : ExcRowsEquiv (applyInverses a es) (applyInverses b es) := by
  induction es generalizing a b with
  | nil => exact h
  | cons e es ih =>
    have hstep := applyInverse_congr h e
    unfold applyInverses
    cases ha : applyInverse a e with
    | error ea =>
      cases hb : applyInverse b e with
      | error eb =>
        rw [ha, hb] at hstep
        unfold ExcRowsEquiv at hstep
        subst hstep
        simp [exc_bind_error]
        rfl
      | ok rb =>
        rw [ha, hb] at hstep
        exact absurd hstep (by unfold ExcRowsEquiv; simp)
    | ok ra =>
      cases hb : applyInverse b e with
      | error eb =>
        rw [ha, hb] at hstep
        exact absurd hstep (by unfold ExcRowsEquiv; simp)
      | ok rb =>
        rw [ha, hb] at hstep
        unfold ExcRowsEquiv at hstep
        rw [exc_bind_ok, exc_bind_ok]
        exact ih hstep

theorem applyInverses_cons (rows : List Row) (e : ChangeEntry) (es : List ChangeEntry) :
    applyInverses rows (e :: es) =
      (applyInverse rows e) >>= (fun r => applyInverses r es) := rfl

theorem applyInverses_append (rows : List Row) (a b : List ChangeEntry) :
    applyInverses rows (a ++ b) =
      (applyInverses rows a) >>= (fun r => applyInverses r b) := by
  induction a generalizing rows with
  | nil => simp [applyInverses, exc_bind_ok]
  | cons e es ih =>
    rw [show (e :: es) ++ b = e :: (es ++ b) from rfl, applyInverses_cons,
        applyInverses_cons]
    cases hs : applyInverse rows e with
    | error err => simp [exc_bind_error]
    | ok r =>
      rw [exc_bind_ok, exc_bind_ok]
      exact ih r

/-! ## Replaying the inverses of one mutation -/

theorem find?_isSome_of_countId_pos (rows : List Row) (oid : Int)
    (h : 0 < countId rows oid) :
    ∃ r, rows.find? (fun x => x.objectId == oid) = some r := by
  cases hf : rows.find? (fun x => x.objectId == oid) with
  | some r => exact ⟨r, rfl⟩
  | none =>
    have := (find?_eq_none_iff_countId rows oid).1 hf
    have hz := (countId_eq_zero_iff rows oid).2 this
    omega

theorem applyInverses_delete_entries (es : List ChangeEntry) (cur : List Row)
    (hdel : ∀ e ∈ es, e.action = ChangeType.delete)
    (habs : ∀ e ∈ es, countId cur e.objectId = 0)
    (hnd : List.Pairwise (fun a b => a.objectId ≠ b.objectId) es) :
    applyInverses cur es =
      .ok (cur ++ es.map (fun e => (⟨e.objectId, e.previous⟩ : Row))) := by
  induction es generalizing cur with
  | nil => simp [applyInverses]
  | cons e es ih =>
    rcases List.pairwise_cons.1 hnd with ⟨hh, ht⟩
    have he := hdel e (by simp)
    have hstep : applyInverse cur e =
        .ok (cur ++ [(⟨e.objectId, e.previous⟩ : Row)]) := by
      simp only [applyInverse, he]
      rw [if_pos (habs e (by simp))]
    have hcnt1 : ∀ f ∈ es,
        countId (cur ++ [(⟨e.objectId, e.previous⟩ : Row)]) f.objectId = 0 := by
      intro f hf
      rw [countId_append, habs f (by simp [hf]), countId_singleton]
      have hne := hh f hf
      rw [if_neg ?_]
      · exact Ne.intro fun hfe => hne hfe
    rw [applyInverses_cons, hstep, exc_bind_ok,
        ih _ (fun f hf => hdel f (by simp [hf])) hcnt1 ht]
    simp

theorem obsLookup_map_upd (cur : List Row) (k : Int) (p : Obj) (oid : Int) :
    obsLookup (cur.map (fun r =>
        if r.objectId == k then { r with properties := p } else r)) oid =
      if oid = k then (obsLookup cur oid).map (fun _ => obsProps (⟨k, p⟩ : Row))
      else obsLookup cur oid := by
  have hfid : ∀ r : Row, ((if r.objectId == k then
      { r with properties := p } else r) : Row).objectId = r.objectId := by
    intro r
    by_cases h : r.objectId = k <;> simp [h]
  unfold obsLookup
  rw [find?_map_of_id _ hfid]
  cases hf : cur.find? (fun r => r.objectId == oid) with
  | none => by_cases h : oid = k <;> simp [h]
  | some r =>
    have hr : r.objectId = oid := by simpa using List.find?_some hf
    by_cases h : oid = k
    · subst h
      simp only [Option.map_some']
      rw [row_upd_eq r oid p hr]
      simp
    · have hb : (r.objectId == k) = false := by
        rw [beq_eq_false_iff_ne]
        omega
      have h2 : r.objectId ≠ k := by omega
      simp [hb, h2, h]

theorem applyInverses_update_entries (es : List ChangeEntry) (cur : List Row)
    (hupd : ∀ e ∈ es, e.action = ChangeType.update)
    (hcnt : ∀ e ∈ es, countId cur e.objectId = 1)
    (hnd : List.Pairwise (fun a b => a.objectId ≠ b.objectId) es) :
    ∃ res, applyInverses cur es = .ok res ∧
      (∀ oid, countId res oid = countId cur oid) ∧
      (∀ oid, (∀ e ∈ es, e.objectId ≠ oid) → obsLookup res oid = obsLookup cur oid) ∧
      (∀ e ∈ es, obsLookup res e.objectId =
        some (obsProps (⟨e.objectId, e.previous⟩ : Row))) := by
  induction es generalizing cur with
  | nil =>
    exact ⟨cur, rfl, fun _ => rfl, fun _ _ => rfl, fun e he => absurd he (by simp)⟩
  | cons e es ih =>
    rcases List.pairwise_cons.1 hnd with ⟨hh, ht⟩
    have he := hupd e (by simp)
    have hfid : ∀ r : Row, ((if r.objectId == e.objectId then
        { r with properties := e.previous } else r) : Row).objectId = r.objectId := by
      intro r
      by_cases h : r.objectId = e.objectId <;> simp [h]
    have hstep : applyInverse cur e = .ok (cur.map (fun r =>
        if r.objectId == e.objectId then { r with properties := e.previous } else r)) := by
      simp only [applyInverse, he]
      rw [if_pos (hcnt e (by simp))]
    have hcnt1 : ∀ f ∈ es, countId (cur.map (fun r =>
        if r.objectId == e.objectId then { r with properties := e.previous } else r))
        f.objectId = 1 := by
      intro f hf
      rw [countId_map_of_id _ hfid]
      exact hcnt f (by simp [hf])
    obtain ⟨res, hres, hcounts, huntouched, hper⟩ :=
      ih _ (fun f hf => hupd f (by simp [hf])) hcnt1 ht
    refine ⟨res, ?_, ?_, ?_, ?_⟩
    · rw [applyInverses_cons, hstep, exc_bind_ok, hres]
    · intro oid
      rw [hcounts oid, countId_map_of_id _ hfid]
    · intro oid hoid
      have h1 := huntouched oid (fun f hf => hoid f (by simp [hf]))
      rw [h1, obsLookup_map_upd, if_neg ?_]
      have := hoid e (by simp)
      omega
    · intro f hf
      rcases List.mem_cons.1 hf with rfl | hf2
      · have h1 := huntouched f.objectId (fun g hg => (hh g hg).symm)
        rw [h1, obsLookup_map_upd, if_pos rfl]
        obtain ⟨r, hr⟩ := find?_isSome_of_countId_pos cur f.objectId
          (by rw [hcnt f (by simp)]; omega)
        unfold obsLookup
        rw [hr]
        rfl
      · exact hper f hf2

/-! ## The change entries appended by one mutation -/

theorem maxSerialD_nonneg (changes : List ChangeEntry)
    (hpos : ∀ e ∈ changes, 1 ≤ e.serial) : 0 ≤ maxSerialD changes := by
  refine maxIntD_nonneg _ ?_
  intro x hx
  rcases List.mem_map.1 hx with ⟨e, he, rfl⟩
  exact hpos e he

theorem maxSerialD_ub (changes : List ChangeEntry) (e : ChangeEntry)
    (he : e ∈ changes) : e.serial ≤ maxSerialD changes :=
  maxIntD_ub _ _ (List.mem_map.2 ⟨e, he, rfl⟩)

theorem foldl_recordChange_spec (L : List Row) (ty : ChangeType) (prevOf : Row → Obj)
    (s : StoreState) (hpos : ∀ e ∈ s.changes, 1 ≤ e.serial) :
    ∃ E, (L.foldl (fun t r => t.recordChange ty r.objectId (prevOf r)) s) =
        { s with changes := s.changes ++ E } ∧
      E.map (fun e => (e.action, e.objectId, e.previous)) =
        L.map (fun r => (ty, r.objectId, prevOf r)) ∧
      List.Pairwise (fun a b => a.serial < b.serial) E ∧
      (∀ e ∈ E, maxSerialD s.changes < e.serial) ∧
      (∀ e ∈ s.changes ++ E, 1 ≤ e.serial) := by
  induction L generalizing s with
  | nil =>
    refine ⟨[], by simp, by simp, by simp, by simp, by simpa using hpos⟩
  | cons r L ih =>
    have hmax0 : 0 ≤ maxSerialD s.changes := maxSerialD_nonneg _ hpos
    have hstep : s.recordChange ty r.objectId (prevOf r) =
        { s with changes := s.changes ++
          [⟨nextSerial s.changes, ty, r.objectId, prevOf r⟩] } := rfl
    have hpos1 : ∀ e ∈ ({ s with changes := s.changes ++
        [⟨nextSerial s.changes, ty, r.objectId, prevOf r⟩] } : StoreState).changes,
        1 ≤ e.serial := by
      intro e hee
      rcases List.mem_append.1 hee with h | h
      · exact hpos e h
      · simp at h
        subst h
        show 1 ≤ nextSerial s.changes
        unfold nextSerial
        omega
    obtain ⟨E, hfold, hdata, hpw, hgt, hposE⟩ :=
      ih { s with changes := s.changes ++
        [⟨nextSerial s.changes, ty, r.objectId, prevOf r⟩] } hpos1
    have hmaxapp : maxSerialD (s.changes ++
        [⟨nextSerial s.changes, ty, r.objectId, prevOf r⟩]) = nextSerial s.changes := by
      have h1 : maxSerialD (s.changes ++
          [⟨nextSerial s.changes, ty, r.objectId, prevOf r⟩]) =
          max (maxSerialD s.changes) (nextSerial s.changes) := by
        unfold maxSerialD
        rw [List.map_append]
        exact maxIntD_append_singleton _ _ (by simp [nextSerial]; omega)
      rw [h1]
      unfold nextSerial
      omega
    have hgtE : ∀ e ∈ E, nextSerial s.changes < e.serial := by
      intro f hf
      have h := hgt f hf
      simpa [hmaxapp] using h
    refine ⟨⟨nextSerial s.changes, ty, r.objectId, prevOf r⟩ :: E, ?_, ?_, ?_, ?_, ?_⟩
    · show (List.foldl _ (s.recordChange ty r.objectId (prevOf r)) L) = _
      rw [hstep, hfold]
      simp
    · simp [hdata]
    · exact List.pairwise_cons.2 ⟨fun f hf => hgtE f hf, hpw⟩
    · intro f hf
      rcases List.mem_cons.1 hf with rfl | hf2
      · show maxSerialD s.changes < nextSerial s.changes
        unfold nextSerial
        omega
      · have := hgtE f hf2
        unfold nextSerial at this
        omega
    · intro f hf
      have : f ∈ (s.changes ++
          [⟨nextSerial s.changes, ty, r.objectId, prevOf r⟩]) ++ E := by
        simpa [List.append_assoc] using hf
      exact hposE f this

/-! ## From recorded entry data back to the matched rows -/

theorem entry_data_mem {E : List ChangeEntry} {ty : ChangeType} {L : List Row}
    {prevOf : Row → Obj}
    (hdata : E.map (fun e => (e.action, e.objectId, e.previous)) =
      L.map (fun r => (ty, r.objectId, prevOf r)))
    {e : ChangeEntry} (he : e ∈ E) :
    e.action = ty ∧ ∃ r ∈ L, e.objectId = r.objectId ∧ e.previous = prevOf r := by
  have h1 : (e.action, e.objectId, e.previous) ∈
      L.map (fun r => (ty, r.objectId, prevOf r)) := by
    rw [← hdata]
    exact List.mem_map.2 ⟨e, he, rfl⟩
  rcases List.mem_map.1 h1 with ⟨r, hr, heq⟩
  have h2 : ty = e.action ∧ r.objectId = e.objectId ∧ prevOf r = e.previous := by
    simpa [Prod.ext_iff] using heq
  exact ⟨h2.1.symm, r, hr, h2.2.1.symm, h2.2.2.symm⟩

theorem entry_data_ids {E : List ChangeEntry} {ty : ChangeType} {L : List Row}
    {prevOf : Row → Obj}
    (hdata : E.map (fun e => (e.action, e.objectId, e.previous)) =
      L.map (fun r => (ty, r.objectId, prevOf r))) :
    E.map (fun e => e.objectId) = L.map (fun r => r.objectId) := by
  have := congrArg (List.map (fun t : ChangeType × Int × Obj => t.2.1)) hdata
  simpa [List.map_map, Function.comp] using this

theorem entry_data_rows {E : List ChangeEntry} {ty : ChangeType} {L : List Row}
    {prevOf : Row → Obj}
    (hdata : E.map (fun e => (e.action, e.objectId, e.previous)) =
      L.map (fun r => (ty, r.objectId, prevOf r))) :
    E.map (fun e => (⟨e.objectId, e.previous⟩ : Row)) =
      L.map (fun r => (⟨r.objectId, prevOf r⟩ : Row)) := by
  have := congrArg (List.map (fun t : ChangeType × Int × Obj =>
    (⟨t.2.1, t.2.2⟩ : Row))) hdata
  simpa [List.map_map, Function.comp] using this

theorem pairwise_ids_of_map_eq {E : List ChangeEntry} {L : List Row}
    (hids : E.map (fun e => e.objectId) = L.map (fun r => r.objectId))
    (hL : NodupIds L) : List.Pairwise (fun a b => a.objectId ≠ b.objectId) E := by
  have h1 : List.Pairwise (fun a b : Int => a ≠ b) (L.map (fun r => r.objectId)) := by
    rw [List.pairwise_map]
    exact hL
  rw [← hids, List.pairwise_map] at h1
  exact h1

theorem pairwise_entry_ids_reverse {E : List ChangeEntry}
    (h : List.Pairwise (fun a b => a.objectId ≠ b.objectId) E) :
    List.Pairwise (fun a b => a.objectId ≠ b.objectId) E.reverse := by
  rw [List.pairwise_reverse]
  exact h.imp (fun hab => hab.symm)

/-! ## Observable restoration per mutation -/

theorem rowsEquiv_delete_restore (rows : List Row) (sel : Row → Bool)
    (hnd : NodupIds rows) :
    RowsEquiv (rows.filter (fun r => !sel r) ++
      ((rows.filter sel).map (fun r => (⟨r.objectId, obsProps r⟩ : Row))).reverse)
      rows := by
  have hfid : ∀ r : Row, ((⟨r.objectId, obsProps r⟩ : Row)).objectId = r.objectId :=
    fun _ => rfl
  constructor
  · intro oid
    rw [countId_append, countId_reverse, countId_map_of_id _ hfid,
        ← countId_filter_partition rows sel oid]
    omega
  · intro oid
    rw [obsLookup_append]
    cases hfind : rows.find? (fun r => r.objectId == oid) with
    | none =>
      have hall := (find?_eq_none_iff_countId rows oid).1 hfind
      have h1 : obsLookup (rows.filter (fun r => !sel r)) oid = none := by
        rw [obsLookup_eq_none_iff]
        intro r hr
        exact hall r (List.mem_filter.1 hr).1
      have h2 : obsLookup (((rows.filter sel).map
          (fun r => (⟨r.objectId, obsProps r⟩ : Row))).reverse) oid = none := by
        rw [obsLookup_eq_none_iff]
        intro r hr
        rw [List.mem_reverse] at hr
        rcases List.mem_map.1 hr with ⟨r0, hr0, rfl⟩
        exact hall r0 (List.mem_filter.1 hr0).1
      rw [h1, h2]
      unfold obsLookup
      rw [hfind]
      rfl
    | some r =>
      have hrmem : r ∈ rows := List.mem_of_find?_eq_some hfind
      have hrid : r.objectId = oid := by simpa using List.find?_some hfind
      cases hsel : sel r with
      | false =>
        have h1 : (rows.filter (fun r => !sel r)).find?
            (fun x => x.objectId == oid) = some r := by
          exact find?_eq_some_of_nodup_mem (nodupIds_filter _ hnd)
            (List.mem_filter.2 ⟨hrmem, by simp [hsel]⟩) hrid
        unfold obsLookup
        rw [h1, hfind]
        rfl
      | true =>
        have h1 : obsLookup (rows.filter (fun r => !sel r)) oid = none := by
          rw [obsLookup_eq_none_iff]
          intro x hx
          rcases List.mem_filter.1 hx with ⟨hxmem, hxsel⟩
          intro hxid
          have hxr : x = r := eq_of_mem_nodupIds hnd hxmem hrmem (by omega)
          rw [hxr, hsel] at hxsel
          simp at hxsel
        have hndm : NodupIds (((rows.filter sel).map
            (fun r => (⟨r.objectId, obsProps r⟩ : Row))).reverse) :=
          nodupIds_reverse (nodupIds_map_of_id _ hfid (nodupIds_filter _ hnd))
        have hmem2 : (⟨r.objectId, obsProps r⟩ : Row) ∈ ((rows.filter sel).map
            (fun r => (⟨r.objectId, obsProps r⟩ : Row))).reverse := by
          rw [List.mem_reverse]
          exact List.mem_map.2 ⟨r, List.mem_filter.2 ⟨hrmem, by simp [hsel]⟩, rfl⟩
        have h2 : (((rows.filter sel).map
            (fun r => (⟨r.objectId, obsProps r⟩ : Row))).reverse).find?
            (fun x => x.objectId == oid) = some ⟨r.objectId, obsProps r⟩ :=
          find?_eq_some_of_nodup_mem hndm hmem2 hrid
        rw [h1]
        unfold obsLookup
        rw [h2, hfind]
        simp only [Option.map_some', Option.none_or]
        rw [obsProps_reinsert]

/-! ## ReplaySpec: reflexivity, transitivity, one mutation -/

theorem maxSerialD_prefix_le (l E : List ChangeEntry)
    (hpos : ∀ e ∈ l ++ E, 1 ≤ e.serial) :
    maxSerialD l ≤ maxSerialD (l ++ E) := by
  cases hl : l with
  | nil =>
    subst hl
    simpa using maxSerialD_nonneg E (by intro e he; exact hpos e (by simp [he]))
  | cons x xs =>
    subst hl
    have hmem := maxIntD_mem ((x :: xs).map (fun e => e.serial)) (by simp)
    rcases List.mem_map.1 hmem with ⟨e, he, heq⟩
    have h1 : maxSerialD (x :: xs) = e.serial := heq.symm
    rw [h1]
    refine maxSerialD_ub _ e ?_
    rcases List.mem_cons.1 he with rfl | he2
    · simp
    · simp [he2]

theorem replaySpec_refl (s : StoreState) (hnd : NodupIds s.rows)
    (hbound : ∀ r ∈ s.rows, r.objectId < s.nextObjectId)
    (hpos : ∀ e ∈ s.changes, 1 ≤ e.serial) : ReplaySpec s s := by
  exact ⟨[], by simp, rfl, by simp, by simp, hpos, hnd, hbound, le_refl _,
    s.rows, rfl, rowsEquiv_refl _⟩

theorem replaySpec_trans {s s1 s2 : StoreState}
    (h1 : ReplaySpec s s1) (h2 : ReplaySpec s1 s2) : ReplaySpec s s2 := by
  obtain ⟨E1, hc1, hk1, hpw1, hgt1, hpos1, hnd1, hb1, hnx1, res1, hr1, heq1⟩ := h1
  obtain ⟨E2, hc2, hk2, hpw2, hgt2, hpos2, hnd2, hb2, hnx2, res2, hr2, heq2⟩ := h2
  refine ⟨E1 ++ E2, ?_, ?_, ?_, ?_, ?_, hnd2, hb2, le_trans hnx1 hnx2, ?_⟩
  · rw [hc2, hc1, List.append_assoc]
  · rw [hk2, hk1]
  · rw [List.pairwise_append]
    refine ⟨hpw1, hpw2, ?_⟩
    intro a ha b hb
    have haub : a.serial ≤ maxSerialD s1.changes := by
      refine maxSerialD_ub _ a ?_
      rw [hc1]
      simp [ha]
    have := hgt2 b hb
    omega
  · intro e he
    rcases List.mem_append.1 he with h | h
    · exact hgt1 e h
    · have hle : maxSerialD s.changes ≤ maxSerialD s1.changes := by
        rw [hc1]
        refine maxSerialD_prefix_le _ _ ?_
        rw [← hc1]
        exact hpos1
      have := hgt2 e h
      omega
  · exact hpos2
  · rw [List.reverse_append, applyInverses_append, hr2, exc_bind_ok]
    have hcongr := applyInverses_congr heq2 E1.reverse
    cases hres : applyInverses res2 E1.reverse with
    | error err =>
      rw [hres, hr1] at hcongr
      exact absurd hcongr (by unfold ExcRowsEquiv; simp)
    | ok res =>
      rw [hres, hr1] at hcongr
      unfold ExcRowsEquiv at hcongr
      exact ⟨res, rfl, rowsEquiv_trans hcongr heq1⟩

theorem replaySpec_addObj (s : StoreState) (props : Obj)
    (hnd : NodupIds s.rows)
    (hbound : ∀ r ∈ s.rows, r.objectId < s.nextObjectId)
    (hpos : ∀ e ∈ s.changes, 1 ≤ e.serial) :
    ReplaySpec s (s.applyMutation (Mutation.addObj props)) := by
  have hmax0 : 0 ≤ maxSerialD s.changes := maxSerialD_nonneg _ hpos
  have hstate : s.applyMutation (Mutation.addObj props) =
      { s with rows := s.rows ++ [⟨s.nextObjectId, props⟩],
               nextObjectId := s.nextObjectId + 1,
               changes := s.changes ++
                 [⟨nextSerial s.changes, .add, s.nextObjectId, []⟩] } := rfl
  rw [hstate]
  refine ⟨[⟨nextSerial s.changes, .add, s.nextObjectId, []⟩], rfl, rfl,
    by simp, ?_, ?_, ?_, ?_, by simp, ?_⟩
  · intro e he
    simp at he
    subst he
    show maxSerialD s.changes < nextSerial s.changes
    unfold nextSerial
    omega
  · intro e he
    rcases List.mem_append.1 he with h | h
    · exact hpos e h
    · simp at h
      subst h
      show 1 ≤ nextSerial s.changes
      unfold nextSerial
      omega
  · show NodupIds (s.rows ++ [⟨s.nextObjectId, props⟩])
    rw [NodupIds, List.pairwise_append]
    refine ⟨hnd, by simp, ?_⟩
    intro a ha b hb
    simp at hb
    subst hb
    have := hbound a ha
    simp
    omega
  · intro r hr
    rcases List.mem_append.1 hr with h | h
    · have := hbound r h
      simp
      omega
    · simp at h
      subst h
      simp
  · have hcnt : countId (s.rows ++ [(⟨s.nextObjectId, props⟩ : Row)])
        s.nextObjectId = 1 := by
      rw [countId_append, countId_singleton, if_pos rfl]
      have hz : countId s.rows s.nextObjectId = 0 := by
        rw [countId_eq_zero_iff]
        intro r hr
        have := hbound r hr
        omega
      omega
    have hfilter : (s.rows ++ [(⟨s.nextObjectId, props⟩ : Row)]).filter
        (fun r => !(r.objectId == s.nextObjectId)) = s.rows := by
      rw [List.filter_append]
      have h1 : s.rows.filter (fun r => !(r.objectId == s.nextObjectId)) = s.rows := by
        rw [List.filter_eq_self]
        intro r hr
        have := hbound r hr
        simp
        omega
      have h2 : [(⟨s.nextObjectId, props⟩ : Row)].filter
          (fun r => !(r.objectId == s.nextObjectId)) = [] := by
        simp
      rw [h1, h2, List.append_nil]
    refine ⟨s.rows, ?_, rowsEquiv_refl _⟩
    show applyInverses _ [⟨nextSerial s.changes, .add, s.nextObjectId, []⟩] = _
    rw [applyInverses_cons]
    have hstep : applyInverse (s.rows ++ [(⟨s.nextObjectId, props⟩ : Row)])
        ⟨nextSerial s.changes, .add, s.nextObjectId, []⟩ = .ok s.rows := by
      simp only [applyInverse]
      rw [if_pos hcnt, hfilter]
    rw [hstep, exc_bind_ok]
    rfl

theorem replaySpec_deleteWhere (s : StoreState) (sel : Row → Bool)
    (hnd : NodupIds s.rows)
    (hbound : ∀ r ∈ s.rows, r.objectId < s.nextObjectId)
    (hpos : ∀ e ∈ s.changes, 1 ≤ e.serial) :
    ReplaySpec s (s.applyMutation (Mutation.deleteWhere sel)) := by
  obtain ⟨E, hfold, hdata, hpw, hgt, hposE⟩ :=
    foldl_recordChange_spec (s.rows.filter sel) ChangeType.delete obsProps s hpos
  have hstate : s.applyMutation (Mutation.deleteWhere sel) =
      { s with changes := s.changes ++ E,
               rows := s.rows.filter (fun r => !sel r) } := by
    simp only [StoreState.applyMutation]
    rw [hfold]
  rw [hstate]
  have hids := entry_data_ids hdata
  have hEpw := pairwise_ids_of_map_eq hids (nodupIds_filter sel hnd)
  have hmatched_count : ∀ e ∈ E.reverse,
      countId (s.rows.filter (fun r => !sel r)) e.objectId = 0 := by
    intro e he
    rw [List.mem_reverse] at he
    obtain ⟨_, r, hr, hid, _⟩ := entry_data_mem hdata he
    rcases List.mem_filter.1 hr with ⟨hrmem, hrsel⟩
    have h1 : countId s.rows r.objectId = 1 :=
      countId_eq_one_of_nodup_mem hnd hrmem rfl
    have h2 : 0 < countId (s.rows.filter sel) r.objectId :=
      countId_pos_of_mem hr r.objectId rfl
    have h3 := countId_filter_partition s.rows sel r.objectId
    rw [hid]
    omega
  have hrepl := applyInverses_delete_entries E.reverse
    (s.rows.filter (fun r => !sel r))
    (by
      intro e he
      rw [List.mem_reverse] at he
      exact (entry_data_mem hdata he).1)
    hmatched_count
    (pairwise_entry_ids_reverse hEpw)
  refine ⟨E, rfl, rfl, hpw, hgt, hposE, nodupIds_filter _ hnd, ?_, le_refl _, ?_⟩
  · intro r hr
    exact hbound r (List.mem_filter.1 hr).1
  · refine ⟨_, hrepl, ?_⟩
    have hrows : E.reverse.map (fun e => (⟨e.objectId, e.previous⟩ : Row)) =
        ((s.rows.filter sel).map
          (fun r => (⟨r.objectId, obsProps r⟩ : Row))).reverse := by
      rw [← List.map_reverse]
      rw [List.map_reverse, List.map_reverse]
      exact congrArg List.reverse (entry_data_rows hdata)
    rw [hrows]
    exact rowsEquiv_delete_restore s.rows sel hnd

theorem replaySpec_setWhere (s : StoreState) (sel : Row → Bool) (fields : Obj)
    (hnd : NodupIds s.rows)
    (hbound : ∀ r ∈ s.rows, r.objectId < s.nextObjectId)
    (hpos : ∀ e ∈ s.changes, 1 ≤ e.serial) :
    ReplaySpec s (s.applyMutation (Mutation.setWhere sel fields)) := by
  by_cases hf : fields = []
  · have hs : s.applyMutation (Mutation.setWhere sel fields) = s := by
      simp [StoreState.applyMutation, hf]
    rw [hs]
    exact replaySpec_refl s hnd hbound hpos
  · obtain ⟨E, hfold, hdata, hpw, hgt, hposE⟩ :=
      foldl_recordChange_spec (s.rows.filter sel) ChangeType.update obsProps s hpos
    have hpatchf : ∀ r : Row, ((if sel r then
        { r with properties := jsonPatch r.properties fields } else r) : Row).objectId =
        r.objectId := by
      intro r
      by_cases h : sel r <;> simp [h]
    have hstate : s.applyMutation (Mutation.setWhere sel fields) =
        { s with changes := s.changes ++ E,
                 rows := s.rows.map (fun r => if sel r then
                   { r with properties := jsonPatch r.properties fields } else r) } := by
      simp only [StoreState.applyMutation, if_neg hf]
      rw [hfold]
    rw [hstate]
    have hids := entry_data_ids hdata
    have hEpw := pairwise_ids_of_map_eq hids (nodupIds_filter sel hnd)
    have hcnt : ∀ e ∈ E.reverse, countId (s.rows.map (fun r => if sel r then
        { r with properties := jsonPatch r.properties fields } else r)) e.objectId = 1 := by
      intro e he
      rw [List.mem_reverse] at he
      obtain ⟨_, r, hr, hid, _⟩ := entry_data_mem hdata he
      rw [countId_map_of_id _ hpatchf, hid]
      exact countId_eq_one_of_nodup_mem hnd (List.mem_filter.1 hr).1 rfl
    obtain ⟨res, hres, hcounts, huntouched, hper⟩ :=
      applyInverses_update_entries E.reverse
        (s.rows.map (fun r => if sel r then
          { r with properties := jsonPatch r.properties fields } else r))
        (by
          intro e he
          rw [List.mem_reverse] at he
          exact (entry_data_mem hdata he).1)
        hcnt
        (pairwise_entry_ids_reverse hEpw)
    refine ⟨E, rfl, rfl, hpw, hgt, hposE,
      nodupIds_map_of_id _ hpatchf hnd, ?_, le_refl _, res, hres, ?_, ?_⟩
    · intro r hr
      rcases List.mem_map.1 hr with ⟨r0, hr0, rfl⟩
      have := hbound r0 hr0
      rw [hpatchf r0]
      exact this
    · intro oid
      rw [hcounts oid, countId_map_of_id _ hpatchf]
    · intro oid
      by_cases hoidm : oid ∈ E.map (fun e => e.objectId)
      · rcases List.mem_map.1 hoidm with ⟨e0, he0, rfl⟩
        obtain ⟨_, r, hr, hid, hprev⟩ := entry_data_mem hdata he0
        have h1 := hper e0 (List.mem_reverse.2 he0)
        rw [h1, hprev, hid]
        have h2 : obsProps (⟨r.objectId, obsProps r⟩ : Row) = obsProps r :=
          obsProps_reinsert r
        rw [h2]
        have h3 : obsLookup s.rows r.objectId = some (obsProps r) := by
          unfold obsLookup
          rw [find?_eq_some_of_nodup_mem hnd (List.mem_filter.1 hr).1 rfl]
          rfl
        rw [h3]
      · have hnone : ∀ e ∈ E.reverse, e.objectId ≠ oid := by
          intro e he heq
          exact hoidm (List.mem_map.2 ⟨e, List.mem_reverse.1 he, heq⟩)
        rw [huntouched oid hnone]
        unfold obsLookup
        rw [find?_map_of_id _ hpatchf]
        cases hfind : s.rows.find? (fun r => r.objectId == oid) with
        | none => rfl
        | some r =>
          have hrid : r.objectId = oid := by simpa using List.find?_some hfind
          have hrsel : sel r = false := by
            cases hsel : sel r with
            | false => rfl
            | true =>
              exfalso
              have hrm : r ∈ s.rows.filter sel :=
                List.mem_filter.2 ⟨List.mem_of_find?_eq_some hfind, by simp [hsel]⟩
              have : r.objectId ∈ (s.rows.filter sel).map (fun x => x.objectId) :=
                List.mem_map.2 ⟨r, hrm, rfl⟩
              rw [← hids] at this
              rw [hrid] at this
              exact hoidm this
          simp [hrsel]

theorem replaySpec_applyMutation (s : StoreState) (m : Mutation)
    (hnd : NodupIds s.rows)
    (hbound : ∀ r ∈ s.rows, r.objectId < s.nextObjectId)
    (hpos : ∀ e ∈ s.changes, 1 ≤ e.serial) :
    ReplaySpec s (s.applyMutation m) := by
  cases m with
  | addObj props => exact replaySpec_addObj s props hnd hbound hpos
  | deleteWhere sel => exact replaySpec_deleteWhere s sel hnd hbound hpos
  | setWhere sel fields => exact replaySpec_setWhere s sel fields hnd hbound hpos

theorem replaySpec_applyMutations (muts : List Mutation) (s : StoreState)
    (hnd : NodupIds s.rows)
    (hbound : ∀ r ∈ s.rows, r.objectId < s.nextObjectId)
    (hpos : ∀ e ∈ s.changes, 1 ≤ e.serial) :
    ReplaySpec s (s.applyMutations muts) := by
  induction muts generalizing s with
  | nil => exact replaySpec_refl s hnd hbound hpos
  | cons m rest ih =>
    have h1 := replaySpec_applyMutation s m hnd hbound hpos
    obtain ⟨E, hc, hk, hpw, hgt, hpos1, hnd1, hb1, hnx, res, hres, heq⟩ := h1
    have h2 := ih (s.applyMutation m) hnd1 hb1 hpos1
    have hfold : s.applyMutations (m :: rest) =
        (s.applyMutation m).applyMutations rest := rfl
    rw [hfold]
    exact replaySpec_trans
      ⟨E, hc, hk, hpw, hgt, hpos1, hnd1, hb1, hnx, res, hres, heq⟩ h2

/-! ## `ORDER BY serial DESC` on a strictly ascending change block -/

theorem insertDescEntry_all_lt (e : ChangeEntry) (m : List ChangeEntry)
    (h : ∀ f ∈ m, e.serial < f.serial) : insertDescEntry e m = m ++ [e] := by
  induction m with
  | nil => rfl
  | cons f fs ih =>
    have hef := h f (by simp)
    rw [insertDescEntry, if_neg (by omega), ih (fun g hg => h g (by simp [hg]))]
    rfl

theorem sortDescEntries_of_strict_asc (l : List ChangeEntry)
    (h : List.Pairwise (fun a b => a.serial < b.serial) l) :
    sortDescEntries l = l.reverse := by
  induction l with
  | nil => rfl
  | cons e es ih =>
    rcases List.pairwise_cons.1 h with ⟨he, hes⟩
    show insertDescEntry e (sortDescEntries es) = (e :: es).reverse
    rw [ih hes,
        insertDescEntry_all_lt e es.reverse (fun f hf => he f (List.mem_reverse.1 hf))]
    simp

/-! ## Claim C1: undo immediately after a commit -/

/-- C1 amended: in any store satisfying the spec's structural invariants
(unique row ids below the id sequence, positive change serials, every
committed change within the newest checkpoint's serial, checkpoint serials
non-negative and within the change log's maximum), committing a checkpoint
that records AT LEAST ONE change entry and immediately undoing returns the
checkpoint's description and restores the store: the change log and
checkpoint table return to their pre-commit contents and every object and
all its property values, as observed through reads, are exactly as before
the commit (the id sequence, by design, is not rewound). -/
theorem undo_after_commit_restores (s : StoreState) (muts : List Mutation)
    (desc : String)
    (hnd : NodupIds s.rows)
    (hbound : ∀ r ∈ s.rows, r.objectId < s.nextObjectId)
    (hpos : ∀ e ∈ s.changes, 1 ≤ e.serial)
    (howned : ∀ e ∈ s.changes, e.serial ≤ maxCkptSerialD s)
    (hckser : ∀ c ∈ s.checkpoints, c.serial ≤ maxSerialD s.changes)
    (hgrow : s.changes.length < (s.applyMutations muts).changes.length) :
    ∃ t, (s.commitCheckpoint muts desc).undo = .ok (some desc, t) ∧
      RowsEquiv t.rows s.rows ∧
      t.changes = s.changes ∧
      t.checkpoints = s.checkpoints ∧
      t.nextObjectId = (s.commitCheckpoint muts desc).nextObjectId := by
  obtain ⟨E, hc, hk, hpw, hgt, hpos1, hnd1, hb1, hnx, res, hres, heq⟩ :=
    replaySpec_applyMutations muts s hnd hbound hpos
  have hEne : E ≠ [] := by
    intro hE
    rw [hE, List.append_nil] at hc
    rw [hc] at hgrow
    omega
  have hBN : maxSerialD s.changes < maxSerialD (s.applyMutations muts).changes := by
    obtain ⟨e1, he1⟩ := List.exists_mem_of_ne_nil E hEne
    have h1 := hgt e1 he1
    have h2 : e1.serial ≤ maxSerialD (s.applyMutations muts).changes :=
      maxSerialD_ub _ e1 (by rw [hc]; simp [he1])
    omega
  have hB0 : 0 ≤ maxSerialD s.changes := maxSerialD_nonneg _ hpos
  have hPB : maxCkptSerialD s ≤ maxSerialD s.changes := by
    refine maxIntD_le _ _ hB0 ?_
    intro x hx
    rcases List.mem_map.1 hx with ⟨c, hcm, rfl⟩
    exact hckser c hcm
  have hck2 : (s.commitCheckpoint muts desc).checkpoints =
      s.checkpoints ++ [⟨nextCheckpointId (s.applyMutations muts).checkpoints,
        maxSerialD (s.applyMutations muts).changes, desc⟩] := by
    show ((s.applyMutations muts).checkpoints ++ _) = _
    rw [hk]
  have hrows2 : (s.commitCheckpoint muts desc).rows = (s.applyMutations muts).rows := rfl
  have hchanges2 : (s.commitCheckpoint muts desc).changes = s.changes ++ E := by
    show (s.applyMutations muts).changes = _
    exact hc
  have hserials : (s.commitCheckpoint muts desc).checkpoints.map (fun c => c.serial) =
      (s.checkpoints.map (fun c => c.serial)) ++
        [maxSerialD (s.applyMutations muts).changes] := by
    rw [hck2]
    simp
  have hallold : ∀ x ∈ s.checkpoints.map (fun c => c.serial),
      x < maxSerialD (s.applyMutations muts).changes := by
    intro x hx
    rcases List.mem_map.1 hx with ⟨c, hcm, rfl⟩
    have := hckser c hcm
    omega
  have hsort : sortDescInt
      ((s.commitCheckpoint muts desc).checkpoints.map (fun c => c.serial)) =
      maxSerialD (s.applyMutations muts).changes ::
        sortDescInt (s.checkpoints.map (fun c => c.serial)) := by
    rw [hserials]
    exact sortDescInt_append_max _ _ hallold
  have hprev : (sortDescInt (s.checkpoints.map (fun c => c.serial))).head?.getD 0 =
      maxCkptSerialD s :=
    headD_sortDescInt_eq_maxIntD _
  have hfind : (s.commitCheckpoint muts desc).checkpoints.find?
      (fun c => c.serial == maxSerialD (s.applyMutations muts).changes) =
      some ⟨nextCheckpointId (s.applyMutations muts).checkpoints,
        maxSerialD (s.applyMutations muts).changes, desc⟩ := by
    rw [hck2, List.find?_append]
    have h1 : s.checkpoints.find?
        (fun c => c.serial == maxSerialD (s.applyMutations muts).changes) = none := by
      rw [List.find?_eq_none]
      intro c hcm
      have := hckser c hcm
      simp
      omega
    rw [h1]
    simp
  have hfilter_changes : (s.commitCheckpoint muts desc).changes.filter
      (fun e => decide (maxCkptSerialD s < e.serial)) = E := by
    rw [hchanges2, List.filter_append]
    have h1 : s.changes.filter (fun e => decide (maxCkptSerialD s < e.serial)) = [] := by
      rw [List.filter_eq_nil_iff]
      intro e he
      have := howned e he
      simp
      omega
    have h2 : E.filter (fun e => decide (maxCkptSerialD s < e.serial)) = E := by
      rw [List.filter_eq_self]
      intro e he
      have := hgt e he
      simp
      omega
    rw [h1, h2, List.nil_append]
  have hkeep_changes : (s.commitCheckpoint muts desc).changes.filter
      (fun e => !decide (maxCkptSerialD s < e.serial)) = s.changes := by
    rw [hchanges2, List.filter_append]
    have h1 : s.changes.filter (fun e => !decide (maxCkptSerialD s < e.serial)) =
        s.changes := by
      rw [List.filter_eq_self]
      intro e he
      have := howned e he
      simp
      omega
    have h2 : E.filter (fun e => !decide (maxCkptSerialD s < e.serial)) = [] := by
      rw [List.filter_eq_nil_iff]
      intro e he
      have := hgt e he
      simp
      omega
    rw [h1, h2, List.append_nil]
  have hkeep_ckpts : (s.commitCheckpoint muts desc).checkpoints.filter
      (fun c => !(c.serial == maxSerialD (s.applyMutations muts).changes)) =
      s.checkpoints := by
    rw [hck2, List.filter_append]
    have h1 : s.checkpoints.filter
        (fun c => !(c.serial == maxSerialD (s.applyMutations muts).changes)) =
        s.checkpoints := by
      rw [List.filter_eq_self]
      intro c hcm
      have := hckser c hcm
      simp
      omega
    have h2 : ([⟨nextCheckpointId (s.applyMutations muts).checkpoints,
        maxSerialD (s.applyMutations muts).changes, desc⟩] :
        List CheckpointRow).filter
        (fun c => !(c.serial == maxSerialD (s.applyMutations muts).changes)) = [] := by
      simp
    rw [h1, h2, List.append_nil]
  have hres2 : applyInverses (s.commitCheckpoint muts desc).rows E.reverse =
      .ok res := by
    rw [hrows2]
    exact hres
  refine ⟨{ s.commitCheckpoint muts desc with
      rows := res,
      changes := (s.commitCheckpoint muts desc).changes.filter
        (fun e => !decide (maxCkptSerialD s < e.serial)),
      checkpoints := (s.commitCheckpoint muts desc).checkpoints.filter
        (fun c => !(c.serial == maxSerialD (s.applyMutations muts).changes)) },
    ?_, heq, hkeep_changes, hkeep_ckpts, rfl⟩
  · unfold StoreState.undo
    rw [hsort]
    show (let prev := (sortDescInt (s.checkpoints.map (fun c => c.serial))).head?.getD 0
      match (s.commitCheckpoint muts desc).checkpoints.find?
          (fun c => c.serial == maxSerialD (s.applyMutations muts).changes) with
      | none => Except.error StoreErr.queryReturnedNoRows
      | some curRow => do
        let entries := sortDescEntries ((s.commitCheckpoint muts desc).changes.filter
          (fun e => decide (prev < e.serial)))
        let rows1 ← applyInverses (s.commitCheckpoint muts desc).rows entries
        Except.ok (some curRow.description,
          { s.commitCheckpoint muts desc with
              rows := rows1,
              changes := (s.commitCheckpoint muts desc).changes.filter
                (fun e => !decide (prev < e.serial)),
              checkpoints := (s.commitCheckpoint muts desc).checkpoints.filter
                (fun c => !(c.serial ==
                  maxSerialD (s.applyMutations muts).changes)) })) = _
    rw [hprev, hfind]
    show (do
      let rows1 ← applyInverses (s.commitCheckpoint muts desc).rows
        (sortDescEntries ((s.commitCheckpoint muts desc).changes.filter
          (fun e => decide (maxCkptSerialD s < e.serial))))
      Except.ok (some desc,
        { s.commitCheckpoint muts desc with
            rows := rows1,
            changes := (s.commitCheckpoint muts desc).changes.filter
              (fun e => !decide (maxCkptSerialD s < e.serial)),
            checkpoints := (s.commitCheckpoint muts desc).checkpoints.filter
              (fun c => !(c.serial ==
                maxSerialD (s.applyMutations muts).changes)) })) = _
    rw [hfilter_changes, sortDescEntries_of_strict_asc E hpw, hres2, exc_bind_ok]

/-- C1 witness: `undo_after_commit_restores` applied to adding one object
to the empty store under description "populate store" and undoing. -/
theorem undo_after_commit_restores_witness :
    (StoreState.emptyStore.changes.length <
      (StoreState.emptyStore.applyMutations
        [Mutation.addObj [("name", PropValue.str "one")]]).changes.length) ∧
    ∃ t, (StoreState.emptyStore.commitCheckpoint
        [Mutation.addObj [("name", PropValue.str "one")]] "populate store").undo =
        .ok (some "populate store", t) ∧
      RowsEquiv t.rows StoreState.emptyStore.rows ∧
      t.changes = StoreState.emptyStore.changes ∧
      t.checkpoints = StoreState.emptyStore.checkpoints ∧
      t.nextObjectId = (StoreState.emptyStore.commitCheckpoint
        [Mutation.addObj [("name", PropValue.str "one")]]
        "populate store").nextObjectId := by
  refine ⟨by decide, ?_⟩
  exact undo_after_commit_restores StoreState.emptyStore
    [Mutation.addObj [("name", PropValue.str "one")]] "populate store"
    (by simp [NodupIds, StoreState.emptyStore])
    (by simp [StoreState.emptyStore])
    (by simp [StoreState.emptyStore])
    (by simp [StoreState.emptyStore])
    (by simp [StoreState.emptyStore])
    (by decide)

/-- C1 counterexample: committing checkpoint "b" with zero mutations right
after the zero-mutation checkpoint "a" (both carry serial 0) and calling
undo() returns Some("a"), NOT the undone checkpoint's description "b": the
unordered `SELECT description ... WHERE serial = ?` lookup returns the
first row in primary-key order, and the trailing
`DELETE FROM checkpoints WHERE serial = ?` removes BOTH checkpoint rows. -/
theorem undo_returns_wrong_description :
    ((StoreState.emptyStore.commitCheckpoint [] "a").commitCheckpoint [] "b").undo =
      .ok (some "a", StoreState.emptyStore) ∧ ("a" : String) ≠ "b" := by
  exact ⟨rfl, by decide⟩

/-! ## Claim C7: ordering of committed checkpoints -/

theorem applyMutation_changes_shape (s : StoreState) (m : Mutation)
    (hpos : ∀ e ∈ s.changes, 1 ≤ e.serial) :
    ∃ E, (s.applyMutation m).changes = s.changes ++ E ∧
      (s.applyMutation m).checkpoints = s.checkpoints ∧
      (∀ e ∈ (s.applyMutation m).changes, 1 ≤ e.serial) := by
  cases m with
  | addObj props =>
    refine ⟨[⟨nextSerial s.changes, .add, s.nextObjectId, []⟩], rfl, rfl, ?_⟩
    intro e he
    rcases List.mem_append.1 he with h | h
    · exact hpos e h
    · simp at h
      subst h
      show 1 ≤ nextSerial s.changes
      have := maxSerialD_nonneg s.changes hpos
      unfold nextSerial
      omega
  | deleteWhere sel =>
    obtain ⟨E, hfold, _, _, _, hposE⟩ :=
      foldl_recordChange_spec (s.rows.filter sel) ChangeType.delete obsProps s hpos
    refine ⟨E, ?_, ?_, ?_⟩
    · show ((s.rows.filter sel).foldl
        (fun t r => t.recordChange ChangeType.delete r.objectId (obsProps r)) s).changes = _
      rw [hfold]
    · show ((s.rows.filter sel).foldl
        (fun t r => t.recordChange ChangeType.delete r.objectId (obsProps r)) s).checkpoints = _
      rw [hfold]
    · intro e he
      refine hposE e ?_
      revert he
      show e ∈ ((s.rows.filter sel).foldl
        (fun t r => t.recordChange ChangeType.delete r.objectId (obsProps r)) s).changes → _
      rw [hfold]
      exact fun he => he
  | setWhere sel fields =>
    by_cases hf : fields = []
    · refine ⟨[], ?_, ?_, ?_⟩
      · simp [StoreState.applyMutation, hf]
      · simp [StoreState.applyMutation, hf]
      · simp only [StoreState.applyMutation, if_pos hf]
        exact hpos
    · obtain ⟨E, hfold, _, _, _, hposE⟩ :=
        foldl_recordChange_spec (s.rows.filter sel) ChangeType.update obsProps s hpos
      refine ⟨E, ?_, ?_, ?_⟩
      · show (s.applyMutation (Mutation.setWhere sel fields)).changes = _
        simp only [StoreState.applyMutation, if_neg hf]
        rw [hfold]
      · show (s.applyMutation (Mutation.setWhere sel fields)).checkpoints = _
        simp only [StoreState.applyMutation, if_neg hf]
        rw [hfold]
      · intro e he
        refine hposE e ?_
        revert he
        show e ∈ (s.applyMutation (Mutation.setWhere sel fields)).changes → _
        simp only [StoreState.applyMutation, if_neg hf]
        rw [hfold]
        exact fun he => he

theorem applyMutations_changes_shape (muts : List Mutation) (s : StoreState)
    (hpos : ∀ e ∈ s.changes, 1 ≤ e.serial) :
    ∃ E, (s.applyMutations muts).changes = s.changes ++ E ∧
      (s.applyMutations muts).checkpoints = s.checkpoints ∧
      (∀ e ∈ (s.applyMutations muts).changes, 1 ≤ e.serial) := by
  induction muts generalizing s with
  | nil => exact ⟨[], by show s.changes = s.changes ++ []; simp, rfl, by simpa using hpos⟩
  | cons m rest ih =>
    obtain ⟨E1, hc1, hk1, hp1⟩ := applyMutation_changes_shape s m hpos
    obtain ⟨E2, hc2, hk2, hp2⟩ := ih (s.applyMutation m) hp1
    refine ⟨E1 ++ E2, ?_, ?_, hp2⟩
    · show ((s.applyMutation m).applyMutations rest).changes = _
      rw [hc2, hc1, List.append_assoc]
    · show ((s.applyMutation m).applyMutations rest).checkpoints = _
      rw [hk2, hk1]

theorem undo_ok_inversion {s : StoreState} {d : Option String} {t : StoreState}
    (h : s.undo = .ok (d, t)) :
    t = s ∨ ∃ cur restSerials,
      sortDescInt (s.checkpoints.map (fun c => c.serial)) = cur :: restSerials ∧
      t.changes = s.changes.filter
        (fun e => !decide (restSerials.head?.getD 0 < e.serial)) ∧
      t.checkpoints = s.checkpoints.filter (fun c => !(c.serial == cur)) := by
  unfold StoreState.undo at h
  cases hs : sortDescInt (s.checkpoints.map (fun c => c.serial)) with
  | nil =>
    rw [hs] at h
    simp only [Except.ok.injEq, Prod.mk.injEq] at h
    exact Or.inl h.2.symm
  | cons cur rest =>
    rw [hs] at h
    dsimp only at h
    cases hf : s.checkpoints.find? (fun c => c.serial == cur) with
    | none =>
      rw [hf] at h
      simp at h
    | some curRow =>
      rw [hf] at h
      dsimp only at h
      cases hai : applyInverses s.rows
          (sortDescEntries (s.changes.filter
            (fun e => decide (rest.head?.getD 0 < e.serial)))) with
      | error err =>
        rw [hai, exc_bind_error] at h
        simp at h
      | ok rows1 =>
        rw [hai, exc_bind_ok] at h
        simp only [Except.ok.injEq, Prod.mk.injEq] at h
        refine Or.inr ⟨cur, rest, rfl, ?_, ?_⟩
        · rw [← h.2]
        · rw [← h.2]

theorem storeInv_empty : StoreInv StoreState.emptyStore := by
  refine ⟨by simp [StoreState.emptyStore], by simp [StoreState.emptyStore],
    by simp [StoreState.emptyStore], by simp [StoreState.emptyStore],
    by simp [StoreState.emptyStore]⟩

theorem storeInv_commit (s : StoreState) (muts : List Mutation) (desc : String)
    (h : StoreInv s) : StoreInv (s.commitCheckpoint muts desc) := by
  obtain ⟨hid, hser, hsnn, hwit, hcpos⟩ := h
  obtain ⟨E, hc, hk, hpos1⟩ := applyMutations_changes_shape muts s hcpos
  have hck2 : (s.commitCheckpoint muts desc).checkpoints =
      s.checkpoints ++ [⟨nextCheckpointId (s.applyMutations muts).checkpoints,
        maxSerialD (s.applyMutations muts).changes, desc⟩] := by
    show ((s.applyMutations muts).checkpoints ++ _) = _
    rw [hk]
  have hchanges2 : (s.commitCheckpoint muts desc).changes =
      (s.applyMutations muts).changes := rfl
  have hN0 : 0 ≤ maxSerialD (s.applyMutations muts).changes :=
    maxSerialD_nonneg _ hpos1
  have hserle : ∀ c ∈ s.checkpoints,
      c.serial ≤ maxSerialD (s.applyMutations muts).changes := by
    intro c hcm
    rcases hwit c hcm with hz | ⟨e, he, heq⟩
    · omega
    · have : e ∈ (s.applyMutations muts).changes := by
        rw [hc]
        simp [he]
      have := maxSerialD_ub _ e this
      omega
  have hidlt : ∀ c ∈ s.checkpoints,
      c.checkpointId < nextCheckpointId (s.applyMutations muts).checkpoints := by
    intro c hcm
    have : c.checkpointId ≤ maxIntD (s.checkpoints.map (fun x => x.checkpointId)) :=
      maxIntD_ub _ _ (List.mem_map.2 ⟨c, hcm, rfl⟩)
    have hk2 : nextCheckpointId (s.applyMutations muts).checkpoints =
        maxIntD (s.checkpoints.map (fun x => x.checkpointId)) + 1 := by
      rw [hk]
      rfl
    omega
  refine ⟨?_, ?_, ?_, ?_, ?_⟩
  · rw [hck2, List.pairwise_append]
    exact ⟨hid, by simp, by intro a ha b hb; simp at hb; subst hb; exact hidlt a ha⟩
  · rw [hck2, List.pairwise_append]
    exact ⟨hser, by simp, by intro a ha b hb; simp at hb; subst hb; exact hserle a ha⟩
  · rw [hck2]
    intro c hcm
    rcases List.mem_append.1 hcm with h1 | h1
    · exact hsnn c h1
    · simp at h1
      subst h1
      exact hN0
  · rw [hck2, hchanges2]
    intro c hcm
    rcases List.mem_append.1 hcm with h1 | h1
    · rcases hwit c h1 with hz | ⟨e, he, heq⟩
      · exact Or.inl hz
      · refine Or.inr ⟨e, ?_, heq⟩
        rw [hc]
        simp [he]
    · simp at h1
      subst h1
      show maxSerialD (s.applyMutations muts).changes = 0 ∨ _
      by_cases hcc : (s.applyMutations muts).changes = []
      · exact Or.inl (by simp [maxSerialD, hcc, maxIntD, maxInt?])
      · refine Or.inr ?_
        have hmem : maxIntD ((s.applyMutations muts).changes.map
            (fun e => e.serial)) ∈ (s.applyMutations muts).changes.map
            (fun e => e.serial) := by
          refine maxIntD_mem _ ?_
          simpa using hcc
        rcases List.mem_map.1 hmem with ⟨e, he, heq⟩
        exact ⟨e, he, heq⟩
  · rw [hchanges2]
    exact hpos1

theorem storeInv_undo {s : StoreState} {d : Option String} {t : StoreState}
    (h : StoreInv s) (hu : s.undo = .ok (d, t)) : StoreInv t := by
  obtain ⟨hid, hser, hsnn, hwit, hcpos⟩ := h
  rcases undo_ok_inversion hu with rfl | ⟨cur, rest, hsort, hch, hck⟩
  · exact ⟨hid, hser, hsnn, hwit, hcpos⟩
  refine ⟨?_, ?_, ?_, ?_, ?_⟩
  · rw [hck]
    exact List.Pairwise.filter _ hid
  · rw [hck]
    exact List.Pairwise.filter _ hser
  · rw [hck]
    intro c hcm
    exact hsnn c (List.mem_filter.1 hcm).1
  · rw [hck, hch]
    intro c hcm
    rcases List.mem_filter.1 hcm with ⟨hcmem, hcne⟩
    have hcne2 : c.serial ≠ cur := by simpa using hcne
    rcases hwit c hcmem with hz | ⟨e, he, heq⟩
    · exact Or.inl hz
    · refine Or.inr ⟨e, ?_, heq⟩
      refine List.mem_filter.2 ⟨he, ?_⟩
      have hcle : c.serial ≤ rest.head?.getD 0 := by
        have hmem : c.serial ∈ cur :: rest := by
          rw [← hsort]
          exact mem_sortDescInt.2 (List.mem_map.2 ⟨c, hcmem, rfl⟩)
        rcases List.mem_cons.1 hmem with heq2 | hmem2
        · exact absurd heq2 hcne2
        · cases hrest : rest with
          | nil =>
            rw [hrest] at hmem2
            simp at hmem2
          | cons h0 rest2 =>
            have hsorted := sorted_sortDescInt (s.checkpoints.map (fun c => c.serial))
            rw [hsort, hrest] at hsorted
            have := head_ge_of_sorted_desc h0 rest2
              (List.pairwise_cons.1 hsorted).2
            rw [hrest] at hmem2
            have := this c.serial hmem2
            simp [hrest]
            omega
      simp
      omega
  · rw [hch]
    intro e he
    exact hcpos e (List.mem_filter.1 he).1

theorem storeInv_of_reachable (s : StoreState) (h : Reachable s) : StoreInv s := by
  induction h with
  | init => exact storeInv_empty
  | commit s muts desc _ ih => exact storeInv_commit s muts desc ih
  | undoStep s d t _ hu ih => exact storeInv_undo ih hu

/-- C7 counterexample: the reachable state after committing two checkpoints
with zero mutations (descriptions "a" then "b") holds two committed
checkpoint rows that SHARE serial 0, so committed checkpoints are not
strictly ordered by serial. -/
theorem reachable_checkpoints_share_serial :
    Reachable ((StoreState.emptyStore.commitCheckpoint [] "a").commitCheckpoint [] "b") ∧
    ¬ List.Pairwise (fun a b => a.serial < b.serial)
      ((StoreState.emptyStore.commitCheckpoint [] "a").commitCheckpoint
        [] "b").checkpoints := by
  constructor
  · exact Reachable.commit _ [] "b" (Reachable.commit _ [] "a" Reachable.init)
  · decide

/-- C7 amended: in every reachable committed store state the checkpoint
rows are STRICTLY ordered by checkpoint_id and only WEAKLY (non-strictly)
ordered by serial, the two orders agreeing; two distinct committed
checkpoints may share a serial when one of them records no changes. -/
theorem checkpoints_ordered_by_id_and_weakly_by_serial (s : StoreState)
    (h : Reachable s) :
    List.Pairwise (fun a b => a.checkpointId < b.checkpointId) s.checkpoints ∧
    List.Pairwise (fun a b => a.serial ≤ b.serial) s.checkpoints := by
  have hinv := storeInv_of_reachable s h
  exact ⟨hinv.1, hinv.2.1⟩

/-- C7 witness: `checkpoints_ordered_by_id_and_weakly_by_serial` applied at
a concrete reachable two-commit store. -/
theorem checkpoints_ordered_witness :
    Reachable ((StoreState.emptyStore.commitCheckpoint [] "a").commitCheckpoint
      [] "done") ∧
    List.Pairwise (fun a b => a.checkpointId < b.checkpointId)
      ((StoreState.emptyStore.commitCheckpoint [] "a").commitCheckpoint
        [] "done").checkpoints := by
  have hr : Reachable ((StoreState.emptyStore.commitCheckpoint [] "a").commitCheckpoint
      [] "done") :=
    Reachable.commit _ [] "done" (Reachable.commit _ [] "a" Reachable.init)
  exact ⟨hr, (checkpoints_ordered_by_id_and_weakly_by_serial _ hr).1⟩

end Qualia
